import Mathlib

/-!
# Redundant-access analysis of redshow (analysis/redundant_write.{h,cpp})

A shallow embedding of the class redshow::RedundantWrite: the per-kernel
trace (access counters, last-access history, per-PC statistics), the trace
lifecycle (analysis_begin / analysis_end), the access classifier
(unit_access) and the reporting pass (flush_now, flush).

Modelling conventions.

* std::map and redshow::Map are association lists kept in ascending key
  order by insertion; lookup is by key equality.
* The shared pointer _trace is the key (cpu_thread, kernel_id) of the trace
  it points to: traces are only ever created inside _kernel_trace and never
  removed or replaced, so the pointer always aliases one store entry.
* u32 / u64 identifiers (thread ids, PCs, addresses) are natural numbers, the
  i32 kernel id is an integer.  The uint64_t counters total_accesses and
  redundant_accesses and the per-address touch count are only ever incremented
  by one per delivered event; they are natural numbers (a run delivering 2^64
  events is out of scope).
* A call that dereferences a null _trace (undefined behaviour in the source)
  or that fails the assert of analysis_begin yields none.
* Console output that only serves debugging (the PRINT lines, the map sizes)
  is not part of the model; the per-PC lines written by flush_now are the
  emitted records.
-/

namespace redshow

/-! ## Ordered maps -/

/-- Association list standing for std::map / redshow::Map. -/
abbrev Map (κ ν : Type) := List (κ × ν)

namespace Map

variable {κ ν : Type}

/-- Lookup, the counterpart of map::find: the value stored under the key. -/
def find [DecidableEq κ] : Map κ ν → κ → Option ν
  | [], _ => none
  | (k', v) :: rest, k => if k = k' then some v else find rest k

/-- Membership test of redshow::Map (has). -/
def has [DecidableEq κ] (m : Map κ ν) (k : κ) : Bool := (find m k).isSome

/-- The entry of key k, when there is one, gets the value v; the map keeps its keys. -/
def replace [DecidableEq κ] (k : κ) (v : ν) : Map κ ν → Map κ ν
  | [] => []
  | (k', v') :: rest => if k = k' then (k, v) :: rest else (k', v') :: replace k v rest

/-- A new entry (k, v) is put at its place in ascending key order. -/
def insert_new [LT κ] [DecidableRel (fun (a b : κ) => a < b)]
    (k : κ) (v : ν) : Map κ ν → Map κ ν
  | [] => [(k, v)]
  | (k', v') :: rest =>
    if k < k' then (k, v) :: (k', v') :: rest else (k', v') :: insert_new k v rest

/-- Store v under k (m[k] = v): the entry is overwritten when the key is present and
inserted otherwise. -/
def assign [DecidableEq κ] [LT κ] [DecidableRel (fun (a b : κ) => a < b)]
    (k : κ) (v : ν) (m : Map κ ν) : Map κ ν :=
  if has m k then replace k v m else insert_new k v m

/-- The members emplace and try_emplace of std::map: insert only when the key
is absent, otherwise leave the map as it is. -/
def emplace [DecidableEq κ] [LT κ] [DecidableRel (fun (a b : κ) => a < b)]
    (k : κ) (v : ν) (m : Map κ ν) : Map κ ν :=
  if has m k then m else insert_new k v m

/-- Value read through operator[] : the stored value, or the value-initialised
default d that operator[] creates when the key is absent. -/
def subscript [DecidableEq κ] (m : Map κ ν) (k : κ) (d : ν) : ν := (find m k).getD d

end Map

/-! ## Data model -/

/-- Identity of a GPU thread (common/utils.h); compared field by field. -/
structure ThreadId where
  flat_block_id : Nat
  flat_thread_id : Nat
deriving DecidableEq, Repr

/-- Modelled from the spec: the enum GPUPatchFlags is declared outside the
sources at hand; the spec gives an access kind as read or write. -/
inductive GPUPatchFlags where
  | GPU_PATCH_READ
  | GPU_PATCH_WRITE
deriving DecidableEq, Repr

export GPUPatchFlags (GPU_PATCH_READ GPU_PATCH_WRITE)

/-- Modelled from the spec: the enum GPUPatchType is declared outside the
sources at hand; analysis_begin only distinguishes the redundant-write
analysis kind from every other kind. -/
inductive GPUPatchType where
  | GPU_PATCH_TYPE_REDUNDANT_WRITE
  | GPU_PATCH_TYPE_OTHER
deriving DecidableEq, Repr

export GPUPatchType (GPU_PATCH_TYPE_REDUNDANT_WRITE GPU_PATCH_TYPE_OTHER)

/-- Width descriptor of an access; passed to unit_access and never read. -/
structure AccessKind where
  unit_size : Nat
deriving DecidableEq, Repr

/-- Address range of a monitored region. -/
structure MemoryRange where
  start : Nat
  end_ : Nat
deriving DecidableEq, Repr

/-- A monitored memory region: its address range and allocation-order id. -/
structure Memory where
  op_id : Nat
  memory_range : MemoryRange
deriving DecidableEq, Repr

/-- Modelled from the spec: the default ordering of Memory (its operator<,
which keys AccessHistory) is declared outside the sources at hand.  The spec
identifies a region by its address range plus op_id, the latter as tie-break:
regions are ordered by range start, range end, then op_id. -/
instance : LT Memory where
  lt a b :=
    a.memory_range.start < b.memory_range.start ∨
    (a.memory_range.start = b.memory_range.start ∧
      (a.memory_range.end_ < b.memory_range.end_ ∨
        (a.memory_range.end_ = b.memory_range.end_ ∧ a.op_id < b.op_id)))

instance : DecidableRel (fun (a b : Memory) => a < b) := fun a b =>
  inferInstanceAs (Decidable
    (a.memory_range.start < b.memory_range.start ∨
    (a.memory_range.start = b.memory_range.start ∧
      (a.memory_range.end_ < b.memory_range.end_ ∨
        (a.memory_range.end_ = b.memory_range.end_ ∧ a.op_id < b.op_id)))))

/-- The most recent recorded touch of one address (AccessRecord_t). -/
structure AccessRecord where
  _thread_id : ThreadId
  _pc : Nat
  _access_type : GPUPatchFlags
deriving DecidableEq, Repr

/-- Per-instruction statistics (PCStats_t); the constructor PCStats(type)
starts both counters at 0. -/
structure PCStats where
  total_accesses : Nat
  redundant_accesses : Nat
  access_type : GPUPatchFlags
deriving DecidableEq, Repr

/-- Kernel descriptor carried by every Trace. -/
structure Kernel where
  ctx_id : Int
  cubin_id : Nat
  mod_id : Nat
deriving DecidableEq, Repr

/-- Map<u64, u64>: touch count per address. -/
abbrev AccessCount := Map Nat Nat

/-- RedundantWriteCount: keyed by Memory under ValueDistMemoryComp, which
compares op_id only, so the key is the op_id. -/
abbrev RedundantWriteCount := Map Nat AccessCount

/-- AccessHistory: per region, per address, the stored AccessRecord. -/
abbrev AccessHistory := Map Memory (Map Nat AccessRecord)

/-- PCStatsMap: statistics per PC. -/
abbrev PCStatsMap := Map Nat PCStats

/-- RedundantWriteTrace: the state of one kernel invocation.  The member
access_record_map is never read or written and is left out. -/
structure RedundantWriteTrace where
  kernel : Kernel
  memory_access_count : RedundantWriteCount
  access_history : AccessHistory
  pc_stats : PCStatsMap
deriving DecidableEq, Repr

/-- The analysis object: the trace store _kernel_trace (per cpu thread, per
kernel id), the current-trace handle _trace and the diagnostic access_count. -/
structure RedundantWrite where
  _kernel_trace : Map Nat (Map Int RedundantWriteTrace)
  _trace : Option (Nat × Int)
  access_count : Int
deriving DecidableEq, Repr

namespace RedundantWrite

/-- A newly constructed analysis object: no traces, no bound trace. -/
def init : RedundantWrite :=
  { _kernel_trace := [], _trace := none, access_count := 0 }

/-- The trace stored for (cpu_thread, kernel_id), if any. -/
def trace_at (self : RedundantWrite) (cpu_thread : Nat) (kernel_id : Int) :
    Option RedundantWriteTrace :=
  (Map.find self._kernel_trace cpu_thread).bind (fun traces => Map.find traces kernel_id)

/-- The trace the handle _trace points to, if any. -/
def current (self : RedundantWrite) : Option RedundantWriteTrace :=
  self._trace.bind (fun key => trace_at self key.1 key.2)

/-! ## Trace lifecycle -/

/-- Embedding of RedundantWrite::analysis_begin. -/
def analysis_begin (self : RedundantWrite) (cpu_thread : Nat) (kernel_id : Int)
    (cubin_id mod_id : Nat) (type : GPUPatchType) : Option RedundantWrite :=
  if type ≠ GPU_PATCH_TYPE_REDUNDANT_WRITE then none
  else
    -- this->_kernel_trace[cpu_thread] creates the per-thread map when absent
    let store := Map.emplace cpu_thread [] self._kernel_trace
    let traces := Map.subscript store cpu_thread []
    if ¬ Map.has traces kernel_id then
      let trace : RedundantWriteTrace :=
        { kernel := { ctx_id := kernel_id, cubin_id := cubin_id, mod_id := mod_id },
          memory_access_count := [], access_history := [], pc_stats := [] }
      some { _kernel_trace := Map.assign cpu_thread (Map.assign kernel_id trace traces) store,
             _trace := some (cpu_thread, kernel_id),
             access_count := 0 }
    else
      some { _kernel_trace := store,
             _trace := some (cpu_thread, kernel_id),
             access_count := self.access_count }

/-- Embedding of RedundantWrite::analysis_end: the handle is reset. -/
def analysis_end (self : RedundantWrite) (_cpu_thread : Nat) (_kernel_id : Int) :
    RedundantWrite :=
  { self with _trace := none }

/-! ## Access classifier -/

/-- The redundancy branch of unit_access (lines 92-112): the statistics entry
after comparing the stored record with the event.  The source spells the
field of the read-after-write test __access_type; the record has the single
field _access_type, which is what is read here. -/
def classify (last_access_record : AccessRecord) (thread_id : ThreadId)
    (flags : GPUPatchFlags) (stat : PCStats) : PCStats :=
  if last_access_record._thread_id = thread_id then
    if last_access_record._access_type = flags then
      { stat with redundant_accesses := stat.redundant_accesses + 1 }
    else if last_access_record._access_type = GPU_PATCH_WRITE ∧ flags = GPU_PATCH_READ then
      { stat with redundant_accesses := stat.redundant_accesses + 1 }
    else stat
  else stat

/-- The effect of unit_access on the bound trace (lines 79-118).  A reference obtained
from operator[] or try_emplace is read with Map.subscript (the stored value, or the
value the call creates) and written back with Map.assign.  Both branches of the history
lookup end in access_history[memory].emplace(addr, ...): in the branch where the record
was found that call meets an existing key. -/
def access_trace (t : RedundantWriteTrace) (thread_id : ThreadId) (memory : Memory)
    (pc addr : Nat) (flags : GPUPatchFlags) : RedundantWriteTrace :=
  -- memory_access_count[memory][addr] += 1
  let counts := Map.subscript t.memory_access_count memory.op_id []
  let counts1 := Map.assign addr (Map.subscript counts addr 0 + 1) counts
  let memory_access_count := Map.assign memory.op_id counts1 t.memory_access_count
  -- auto& stat = pc_stats.try_emplace(pc, flags).first->second; stat.total_accesses += 1
  let stat0 := Map.subscript t.pc_stats pc
    { total_accesses := 0, redundant_accesses := 0, access_type := flags }
  let stat := { stat0 with total_accesses := stat0.total_accesses + 1 }
  -- access_history[memory] creates the per-region map when absent
  let history := Map.subscript t.access_history memory []
  match Map.find history addr with
  | none =>
    { t with
      memory_access_count := memory_access_count,
      pc_stats := Map.assign pc stat t.pc_stats,
      access_history :=
        Map.assign memory (Map.emplace addr ⟨thread_id, pc, flags⟩ history) t.access_history }
  | some last_access_record =>
    { t with
      memory_access_count := memory_access_count,
      pc_stats := Map.assign pc (classify last_access_record thread_id flags stat) t.pc_stats,
      access_history :=
        Map.assign memory (Map.emplace addr ⟨thread_id, pc, flags⟩ history) t.access_history }

/-- Embedding of RedundantWrite::unit_access: the event is applied to the trace
the handle _trace points to; kernel_id, access_kind, value and index are
not read. -/
def unit_access (self : RedundantWrite) (_kernel_id : Int) (thread_id : ThreadId)
    (_access_kind : AccessKind) (memory : Memory) (pc _value addr _index : Nat)
    (flags : GPUPatchFlags) : Option RedundantWrite :=
  match self._trace with
  | none => none
  | some (cpu_thread, kernel_id) =>
    match Map.find self._kernel_trace cpu_thread with
    | none => none
    | some traces =>
      match Map.find traces kernel_id with
      | none => none
      | some t =>
        some { self with
          _kernel_trace :=
            Map.assign cpu_thread
              (Map.assign kernel_id (access_trace t thread_id memory pc addr flags) traces)
              self._kernel_trace,
          access_count := self.access_count + 1 }

/-- The arguments of one unit_access call. -/
structure AccessEvent where
  kernel_id : Int
  thread_id : ThreadId
  access_kind : AccessKind
  memory : Memory
  pc : Nat
  value : Nat
  addr : Nat
  index : Nat
  flags : GPUPatchFlags
deriving DecidableEq, Repr

/-- One unit_access call with the arguments of the event. -/
def deliver (self : RedundantWrite) (e : AccessEvent) : Option RedundantWrite :=
  unit_access self e.kernel_id e.thread_id e.access_kind e.memory e.pc e.value e.addr
    e.index e.flags

/-- A sequence of unit_access calls, in order. -/
def deliver_all : RedundantWrite → List AccessEvent → Option RedundantWrite
  | self, [] => some self
  | self, e :: es => (deliver self e).bind (fun next => deliver_all next es)

/-! ## Reporting -/

/-- One emitted per-PC line of flush_now. -/
structure PCRecord where
  pc : Nat
  access_type : GPUPatchFlags
  total_accesses : Nat
  redundant_accesses : Nat
  redundancy_rate : ℚ
deriving DecidableEq

/-- The line flush_now writes for one pc_stats entry; the quotient of the
two counters is taken over the rationals. -/
def report (entry : Nat × PCStats) : PCRecord :=
  { pc := entry.1,
    access_type := entry.2.access_type,
    total_accesses := entry.2.total_accesses,
    redundant_accesses := entry.2.redundant_accesses,
    redundancy_rate := (entry.2.redundant_accesses : ℚ) / (entry.2.total_accesses : ℚ) }

/-- The trace with its memory_access_count cleared (mpc.clear()). -/
def clear_counts (t : RedundantWriteTrace) : RedundantWriteTrace :=
  { t with memory_access_count := [] }

/-- Embedding of RedundantWrite::flush_now: the new state and the emitted
per-PC records, in the order they are written.  The arguments output_dir, cubins and
record_data_callback do not reach the trace store; the stream opened on
Instruction_account.csv is never written to. -/
def flush_now (self : RedundantWrite) (cpu_thread : Nat) : RedundantWrite × List PCRecord :=
  match Map.find self._kernel_trace cpu_thread with
  | none => (self, [])
  | some thread_kernel_trace =>
    ({ self with
        _kernel_trace :=
          Map.assign cpu_thread
            (thread_kernel_trace.map (fun item => (item.1, clear_counts item.2)))
            self._kernel_trace },
      (thread_kernel_trace.map (fun item => item.2.pc_stats.map report)).flatten)

/-- Embedding of RedundantWrite::flush (line 198): the body is empty, so the call returns
the analysis object as it is and emits nothing. -/
def flush (self : RedundantWrite) : RedundantWrite × List PCRecord := (self, [])

/-- The global flush as the spec words it, for comparison with flush: the flush_now
behaviour applied to every execution context present in the store, in ascending order
of the contexts. -/
def flush_as_specified (self : RedundantWrite) : RedundantWrite × List PCRecord :=
  (self._kernel_trace.map Prod.fst).foldl
    (fun acc c => ((flush_now acc.1 c).1, acc.2 ++ (flush_now acc.1 c).2)) (self, [])

/-- States reachable from the empty store by the four public operations. -/
inductive Reachable : RedundantWrite → Prop
  | init : Reachable init
  | analysis_begin {s s' : RedundantWrite} (cpu_thread : Nat) (kernel_id : Int)
      (cubin_id mod_id : Nat) (type : GPUPatchType) :
      Reachable s → analysis_begin s cpu_thread kernel_id cubin_id mod_id type = some s' →
      Reachable s'
  | unit_access {s s' : RedundantWrite} (e : AccessEvent) :
      Reachable s → deliver s e = some s' → Reachable s'
  | analysis_end {s : RedundantWrite} (cpu_thread : Nat) (kernel_id : Int) :
      Reachable s → Reachable (analysis_end s cpu_thread kernel_id)
  | flush_now {s : RedundantWrite} (cpu_thread : Nat) :
      Reachable s → Reachable (flush_now s cpu_thread).1

/-! ## Observers used in the statements -/

/-- Counter total_accesses of a PC in a trace, 0 when the PC has no entry. -/
def total_of (t : RedundantWriteTrace) (pc : Nat) : Nat :=
  ((Map.find t.pc_stats pc).map (fun st => st.total_accesses)).getD 0

/-- Counter redundant_accesses of a PC in a trace, 0 when the PC has no entry. -/
def redundant_of (t : RedundantWriteTrace) (pc : Nat) : Nat :=
  ((Map.find t.pc_stats pc).map (fun st => st.redundant_accesses)).getD 0

/-- The AccessRecord stored for (region, address) in a trace, if any. -/
def record_of (t : RedundantWriteTrace) (memory : Memory) (addr : Nat) : Option AccessRecord :=
  (Map.find t.access_history memory).bind (fun history => Map.find history addr)

/-- A property holds of every trace retained in a trace store. -/
def every_trace (P : RedundantWriteTrace → Prop)
    (store : Map Nat (Map Int RedundantWriteTrace)) : Prop :=
  ∀ c traces, (c, traces) ∈ store → ∀ k t, (k, t) ∈ traces → P t

/-- Every PCStat entry of the trace has redundant_accesses at most total_accesses. -/
def stats_bounded (t : RedundantWriteTrace) : Prop :=
  ∀ pc st, (pc, st) ∈ t.pc_stats → st.redundant_accesses ≤ st.total_accesses

/-- The touch count stored for (region, address) in a trace, if any; the counter map is
keyed by op_id. -/
def counter_of (t : RedundantWriteTrace) (memory : Memory) (addr : Nat) : Option Nat :=
  (Map.find t.memory_access_count memory.op_id).bind (fun counts => Map.find counts addr)

/-- Every PCStat entry of the trace has total_accesses at least 1. -/
def stats_positive (t : RedundantWriteTrace) : Prop :=
  ∀ pc st, (pc, st) ∈ t.pc_stats → 1 ≤ st.total_accesses

/-- Sum over all PCStat entries of total_accesses - redundant_accesses. -/
def non_redundant_sum (t : RedundantWriteTrace) : Nat :=
  (t.pc_stats.map (fun entry => entry.2.total_accesses - entry.2.redundant_accesses)).sum

/-- Number of (region, address) entries of access_history. -/
def history_size (t : RedundantWriteTrace) : Nat :=
  (t.access_history.map (fun entry => entry.2.length)).sum

/-- The (region, address) pairs of the entries of access_history, in storage order. -/
def history_pairs (t : RedundantWriteTrace) : List (Memory × Nat) :=
  t.access_history.flatMap (fun entry => entry.2.map (fun r => (entry.1, r.1)))

/-- Number of traces retained in the store, over all contexts. -/
def trace_count (self : RedundantWrite) : Nat :=
  (self._kernel_trace.map (fun entry => entry.2.length)).sum

/-! ## Concrete scenarios -/

/-- Two GPU threads of block 0. -/
def thread_a : ThreadId := { flat_block_id := 0, flat_thread_id := 0 }

/-- The second GPU thread of block 0. -/
def thread_b : ThreadId := { flat_block_id := 0, flat_thread_id := 1 }

/-- A monitored region. -/
def region : Memory := { op_id := 1, memory_range := { start := 4096, end_ := 8192 } }

/-- An access of the given thread, PC and kind to address 4096 of region, issued for
kernel 7. -/
def touch (thread_id : ThreadId) (pc : Nat) (flags : GPUPatchFlags) : AccessEvent :=
  { kernel_id := 7, thread_id := thread_id, access_kind := { unit_size := 4 },
    memory := region, pc := pc, value := 0, addr := 4096, index := 0, flags := flags }

/-- The state after analysis_begin(0, 7, 1, 1, GPU_PATCH_TYPE_REDUNDANT_WRITE) on a new
analysis object followed by the given unit_access calls. -/
def session (es : List AccessEvent) : Option RedundantWrite :=
  (analysis_begin init 0 7 1 1 GPU_PATCH_TYPE_REDUNDANT_WRITE).bind
    (fun s => deliver_all s es)

/-- The bound trace at the end of a session. -/
def session_trace (es : List AccessEvent) : Option RedundantWriteTrace :=
  (session es).bind current

/-- The records flush_now(0) emits at the end of a session. -/
def session_report (es : List AccessEvent) : Option (List PCRecord) :=
  (session es).map (fun s => (flush_now s 0).2)

/-- The bound trace after thread_a wrote address 4096 of region once from PC 16. -/
def written_trace : RedundantWriteTrace :=
  { kernel := { ctx_id := 7, cubin_id := 1, mod_id := 1 },
    memory_access_count := [(1, [(4096, 1)])],
    access_history := [(region, [(4096, ⟨thread_a, 16, GPU_PATCH_WRITE⟩)])],
    pc_stats := [(16, ⟨1, 0, GPU_PATCH_WRITE⟩)] }

/-- The analysis object holding written_trace as its bound trace. -/
def written_state : RedundantWrite :=
  { _kernel_trace := [(0, [(7, written_trace)])], _trace := some (0, 7), access_count := 1 }

end RedundantWrite

end redshow

/-! ## Facts about the ordered maps -/

namespace redshow

namespace Map

variable {κ ν : Type} [DecidableEq κ] [LT κ] [DecidableRel (fun (a b : κ) => a < b)]

omit [LT κ] [DecidableRel (fun (a b : κ) => a < b)] in
theorem find_replace_self (k : κ) (v : ν) (m : Map κ ν) (h : has m k = true) :
    find (replace k v m) k = some v := by
  induction m with
  | nil => simp [has, find] at h
  | cons hd tl ih =>
    obtain ⟨k1, v1⟩ := hd
    by_cases h1 : k = k1
    · simp [replace, find, h1]
    · simp only [has, find, h1, if_false] at h
      simp [replace, find, h1, ih h]

omit [LT κ] [DecidableRel (fun (a b : κ) => a < b)] in
theorem find_replace_ne (k k' : κ) (v : ν) (m : Map κ ν) (h : k' ≠ k) :
    find (replace k v m) k' = find m k' := by
  induction m with
  | nil => rfl
  | cons hd tl ih =>
    obtain ⟨k1, v1⟩ := hd
    by_cases h1 : k = k1
    · subst h1
      simp [replace, find, h]
    · by_cases h3 : k' = k1
      · simp [replace, find, h1, h3]
      · simp [replace, find, h1, h3, ih]

omit [LT κ] [DecidableRel (fun (a b : κ) => a < b)] in
theorem keys_replace (k : κ) (v : ν) (m : Map κ ν) :
    (replace k v m).map Prod.fst = m.map Prod.fst := by
  induction m with
  | nil => rfl
  | cons hd tl ih =>
    obtain ⟨k1, v1⟩ := hd
    by_cases h1 : k = k1
    · simp [replace, h1]
    · simp [replace, h1, ih]

omit [LT κ] [DecidableRel (fun (a b : κ) => a < b)] in
theorem mem_replace (k : κ) (v : ν) (m : Map κ ν) (x : κ × ν) (hx : x ∈ replace k v m) :
    x = (k, v) ∨ x ∈ m := by
  induction m with
  | nil => cases hx
  | cons hd tl ih =>
    obtain ⟨k1, v1⟩ := hd
    by_cases h1 : k = k1
    · simp only [replace, h1, if_true, List.mem_cons] at hx
      rcases hx with hx | hx
      · left; rw [hx, h1]
      · right; exact List.mem_cons_of_mem _ hx
    · simp only [replace, h1, if_false, List.mem_cons] at hx
      rcases hx with hx | hx
      · right; rw [hx]; exact List.mem_cons_self _ _
      · rcases ih hx with h | h
        · left; exact h
        · right; exact List.mem_cons_of_mem _ h

theorem find_insert_new_self (k : κ) (v : ν) (m : Map κ ν) (h : find m k = none) :
    find (insert_new k v m) k = some v := by
  induction m with
  | nil => simp [insert_new, find]
  | cons hd tl ih =>
    obtain ⟨k1, v1⟩ := hd
    by_cases h1 : k = k1
    · simp [find, h1] at h
    · simp only [find, h1, if_false] at h
      by_cases h2 : k < k1
      · simp [insert_new, find, h2]
      · simp [insert_new, find, h1, h2, ih h]

theorem find_insert_new_ne (k k' : κ) (v : ν) (m : Map κ ν) (h : k' ≠ k) :
    find (insert_new k v m) k' = find m k' := by
  induction m with
  | nil => simp [insert_new, find, h]
  | cons hd tl ih =>
    obtain ⟨k1, v1⟩ := hd
    by_cases h2 : k < k1
    · simp [insert_new, find, h2, h]
    · by_cases h3 : k' = k1
      · simp [insert_new, find, h2, h3]
      · simp [insert_new, find, h2, h3, ih]

omit [DecidableEq κ] in
theorem mem_insert_new (k : κ) (v : ν) (m : Map κ ν) (x : κ × ν)
    (hx : x ∈ insert_new k v m) : x = (k, v) ∨ x ∈ m := by
  induction m with
  | nil => simpa [insert_new] using hx
  | cons hd tl ih =>
    obtain ⟨k1, v1⟩ := hd
    by_cases h2 : k < k1
    · simp only [insert_new, h2, if_true, List.mem_cons] at hx
      rcases hx with hx | hx | hx
      · left; exact hx
      · right; rw [hx]; exact List.mem_cons_self _ _
      · right; exact List.mem_cons_of_mem _ hx
    · simp only [insert_new, h2, if_false, List.mem_cons] at hx
      rcases hx with hx | hx
      · right; rw [hx]; exact List.mem_cons_self _ _
      · rcases ih hx with h | h
        · left; exact h
        · right; exact List.mem_cons_of_mem _ h

theorem find_assign_self (k : κ) (v : ν) (m : Map κ ν) :
    find (assign k v m) k = some v := by
  unfold assign
  by_cases h : has m k = true
  · rw [if_pos h]
    exact find_replace_self k v m h
  · rw [if_neg h]
    apply find_insert_new_self
    unfold has at h
    cases hf : find m k with
    | none => rfl
    | some w => simp [hf] at h

theorem find_assign_ne (k k' : κ) (v : ν) (m : Map κ ν) (h : k' ≠ k) :
    find (assign k v m) k' = find m k' := by
  unfold assign
  split
  · exact find_replace_ne k k' v m h
  · exact find_insert_new_ne k k' v m h

theorem mem_assign (k : κ) (v : ν) (m : Map κ ν) (x : κ × ν) (hx : x ∈ assign k v m) :
    x = (k, v) ∨ x ∈ m := by
  unfold assign at hx
  split at hx
  · exact mem_replace k v m x hx
  · exact mem_insert_new k v m x hx

theorem keys_assign (k : κ) (v : ν) (m : Map κ ν) (h : has m k = true) :
    (assign k v m).map Prod.fst = m.map Prod.fst := by
  unfold assign
  rw [if_pos h]
  exact keys_replace k v m

omit [LT κ] [DecidableRel (fun (a b : κ) => a < b)] in
theorem mem_of_find (m : Map κ ν) (k : κ) (v : ν) (h : find m k = some v) : (k, v) ∈ m := by
  induction m with
  | nil => simp [find] at h
  | cons hd tl ih =>
    obtain ⟨k1, v1⟩ := hd
    by_cases h1 : k = k1
    · simp only [find, h1, if_true, Option.some.injEq] at h
      rw [h1, h]; exact List.mem_cons_self _ _
    · simp only [find, h1, if_false] at h
      exact List.mem_cons_of_mem _ (ih h)

theorem mem_emplace (k : κ) (v : ν) (m : Map κ ν) (x : κ × ν) (hx : x ∈ emplace k v m) :
    x = (k, v) ∨ x ∈ m := by
  unfold emplace at hx
  split at hx
  · right; exact hx
  · exact mem_insert_new k v m x hx

omit [LT κ] [DecidableRel (fun (a b : κ) => a < b)] in
theorem subscript_mem (m : Map κ ν) (k : κ) (d : ν) :
    subscript m k d = d ∨ (k, subscript m k d) ∈ m := by
  unfold subscript
  cases h : find m k with
  | none => left; rfl
  | some v => right; exact mem_of_find m k v h

end Map

end redshow

namespace redshow

namespace RedundantWrite

theorem current_unfold (s : RedundantWrite) (t : RedundantWriteTrace) (h : current s = some t) :
    ∃ c k traces, s._trace = some (c, k) ∧ Map.find s._kernel_trace c = some traces ∧
      Map.find traces k = some t := by
  unfold current trace_at at h
  cases hk : s._trace with
  | none => simp [hk] at h
  | some key =>
    obtain ⟨c, k⟩ := key
    simp only [hk, Option.some_bind] at h
    cases hc : Map.find s._kernel_trace c with
    | none => simp [hc] at h
    | some traces =>
      simp only [hc, Option.some_bind] at h
      exact ⟨c, k, traces, rfl, hc, h⟩

theorem unit_access_bound (s : RedundantWrite) (c : Nat) (k : Int)
    (traces : Map Int RedundantWriteTrace) (t : RedundantWriteTrace)
    (hk : s._trace = some (c, k)) (hc : Map.find s._kernel_trace c = some traces)
    (ht : Map.find traces k = some t) (e : AccessEvent) :
    deliver s e = some
      { s with
        _kernel_trace :=
          Map.assign c
            (Map.assign k (access_trace t e.thread_id e.memory e.pc e.addr e.flags) traces)
            s._kernel_trace,
        access_count := s.access_count + 1 } := by
  simp [deliver, unit_access, hk, hc, ht]

theorem deliver_current (s : RedundantWrite) (t : RedundantWriteTrace) (e : AccessEvent)
    (h : current s = some t) :
    ∃ s', deliver s e = some s' ∧
      current s' = some (access_trace t e.thread_id e.memory e.pc e.addr e.flags) ∧
      s'._trace = s._trace := by
  obtain ⟨c, k, traces, hk, hc, ht⟩ := current_unfold s t h
  refine ⟨_, unit_access_bound s c k traces t hk hc ht e, ?_, rfl⟩
  simp [current, trace_at, hk, Map.find_assign_self]

theorem find_history (t : RedundantWriteTrace) (memory : Memory) (addr : Nat) :
    Map.find (Map.subscript t.access_history memory []) addr = record_of t memory addr := by
  unfold Map.subscript record_of
  cases Map.find t.access_history memory with
  | none => simp [Map.find]
  | some h => simp

theorem find_emplace_self {κ ν : Type} [DecidableEq κ] [LT κ]
    [DecidableRel (fun (a b : κ) => a < b)] (k : κ) (v : ν) (m : Map κ ν) :
    Map.find (Map.emplace k v m) k = some ((Map.find m k).getD v) := by
  unfold Map.emplace Map.has
  cases h : Map.find m k with
  | none => simpa using Map.find_insert_new_self k v m h
  | some w => simp [h]

/-- The record stored for the touched (region, address) after unit_access: the record
that was there before the call when there was one, the event's otherwise. -/
theorem record_of_access_trace (t : RedundantWriteTrace) (thread_id : ThreadId)
    (memory : Memory) (pc addr : Nat) (flags : GPUPatchFlags) :
    record_of (access_trace t thread_id memory pc addr flags) memory addr =
      some ((record_of t memory addr).getD ⟨thread_id, pc, flags⟩) := by
  have h : (access_trace t thread_id memory pc addr flags).access_history =
      Map.assign memory
        (Map.emplace addr ⟨thread_id, pc, flags⟩ (Map.subscript t.access_history memory []))
        t.access_history := by
    unfold access_trace
    simp only
    cases Map.find (Map.subscript t.access_history memory []) addr with
    | none => rfl
    | some r => rfl
  conv_lhs => unfold record_of
  rw [h, Map.find_assign_self, Option.some_bind, find_emplace_self, find_history]

theorem access_trace_pc_stats (t : RedundantWriteTrace) (thread_id : ThreadId) (memory : Memory)
    (pc addr : Nat) (flags : GPUPatchFlags) :
    (access_trace t thread_id memory pc addr flags).pc_stats =
      Map.assign pc
        (match record_of t memory addr with
          | none =>
            { total_accesses := total_of t pc + 1, redundant_accesses := redundant_of t pc,
              access_type := (Map.subscript t.pc_stats pc ⟨0, 0, flags⟩).access_type }
          | some r =>
            classify r thread_id flags
              { total_accesses := total_of t pc + 1, redundant_accesses := redundant_of t pc,
                access_type := (Map.subscript t.pc_stats pc ⟨0, 0, flags⟩).access_type })
        t.pc_stats := by
  have hs : ∀ d : PCStats, d.total_accesses = 0 → d.redundant_accesses = 0 →
      (Map.subscript t.pc_stats pc d).total_accesses = total_of t pc ∧
      (Map.subscript t.pc_stats pc d).redundant_accesses = redundant_of t pc := by
    intro d h1 h2
    unfold Map.subscript total_of redundant_of
    cases Map.find t.pc_stats pc <;> simp [h1, h2]
  have h := hs ⟨0, 0, flags⟩ rfl rfl
  unfold access_trace
  simp only [find_history]
  cases record_of t memory addr with
  | none => simp [h.1, h.2]
  | some r => simp [h.1, h.2]

theorem classify_redundant (r : AccessRecord) (thread_id : ThreadId) (flags : GPUPatchFlags)
    (stat : PCStats) :
    (classify r thread_id flags stat).redundant_accesses =
      stat.redundant_accesses +
        (if r._thread_id = thread_id ∧
            (r._access_type = flags ∨
              (r._access_type = GPU_PATCH_WRITE ∧ flags = GPU_PATCH_READ)) then 1 else 0) := by
  unfold classify
  by_cases h1 : r._thread_id = thread_id
  · by_cases h2 : r._access_type = flags
    · simp [h1, h2]
    · by_cases h3 : r._access_type = GPU_PATCH_WRITE ∧ flags = GPU_PATCH_READ
      · simp [h1, h2, h3]
      · simp [h1, h2, h3]
  · simp [h1]

theorem classify_total (r : AccessRecord) (thread_id : ThreadId) (flags : GPUPatchFlags)
    (stat : PCStats) :
    (classify r thread_id flags stat).total_accesses = stat.total_accesses := by
  unfold classify
  split
  · split
    · rfl
    · split <;> rfl
  · rfl

theorem redundant_of_access_trace (t : RedundantWriteTrace) (thread_id : ThreadId)
    (memory : Memory) (pc addr : Nat) (flags : GPUPatchFlags) (p : Nat) :
    redundant_of (access_trace t thread_id memory pc addr flags) p =
      if p = pc then
        redundant_of t pc +
          (match record_of t memory addr with
            | none => 0
            | some r =>
              if r._thread_id = thread_id ∧
                (r._access_type = flags ∨
                  (r._access_type = GPU_PATCH_WRITE ∧ flags = GPU_PATCH_READ)) then 1 else 0)
      else redundant_of t p := by
  by_cases hp : p = pc
  · subst hp
    rw [if_pos rfl]
    conv_lhs => unfold redundant_of
    rw [access_trace_pc_stats, Map.find_assign_self]
    cases record_of t memory addr with
    | none => simp
    | some r => simp [classify_redundant]
  · rw [if_neg hp]
    conv_lhs => unfold redundant_of
    rw [access_trace_pc_stats, Map.find_assign_ne _ _ _ _ hp]
    rfl

/-- C2: one unit_access step on a bound trace raises redundant_accesses of the event's PC
by exactly 1 if and only if a record is stored for (region, address), its thread is the
event's thread, and its kind equals the event's kind or it is WRITE while the event is
READ; in every other case redundant_accesses of every PC is unchanged (and the counters
of the other PCs are unchanged in either case). -/
theorem C2_classification_table (s : RedundantWrite) (t : RedundantWriteTrace)
    (e : AccessEvent) (hbound : current s = some t) :
    ∃ s' t', deliver s e = some s' ∧ current s' = some t' ∧
      (redundant_of t' e.pc = redundant_of t e.pc + 1 ↔
        ∃ r, record_of t e.memory e.addr = some r ∧ r._thread_id = e.thread_id ∧
          (r._access_type = e.flags ∨
            (r._access_type = GPU_PATCH_WRITE ∧ e.flags = GPU_PATCH_READ))) ∧
      ((¬ ∃ r, record_of t e.memory e.addr = some r ∧ r._thread_id = e.thread_id ∧
          (r._access_type = e.flags ∨
            (r._access_type = GPU_PATCH_WRITE ∧ e.flags = GPU_PATCH_READ))) →
        ∀ p, redundant_of t' p = redundant_of t p) ∧
      (∀ p, p ≠ e.pc → redundant_of t' p = redundant_of t p) := by
  obtain ⟨s', hs', hcur, _⟩ := deliver_current s t e hbound
  refine ⟨s', _, hs', hcur, ?_, ?_, ?_⟩
  · rw [redundant_of_access_trace, if_pos rfl]
    cases hr : record_of t e.memory e.addr with
    | none => simp
    | some r =>
      by_cases hc : r._thread_id = e.thread_id ∧
          (r._access_type = e.flags ∨
            (r._access_type = GPU_PATCH_WRITE ∧ e.flags = GPU_PATCH_READ))
      · simp only [if_pos hc, true_iff]
        exact ⟨r, rfl, hc.1, hc.2⟩
      · simp only [if_neg hc, Nat.add_zero, Nat.self_eq_add_right, one_ne_zero, false_iff]
        rintro ⟨r', hr', h1, h2⟩
        cases hr'
        exact hc ⟨h1, h2⟩
  · intro hno p
    rw [redundant_of_access_trace]
    by_cases hp : p = e.pc
    · rw [if_pos hp, hp]
      cases hr : record_of t e.memory e.addr with
      | none => simp
      | some r =>
        by_cases hc : r._thread_id = e.thread_id ∧
            (r._access_type = e.flags ∨
              (r._access_type = GPU_PATCH_WRITE ∧ e.flags = GPU_PATCH_READ))
        · exact absurd ⟨r, hr, hc.1, hc.2⟩ hno
        · simp [hc]
    · rw [if_neg hp]
  · intro p hp
    rw [redundant_of_access_trace, if_neg hp]

/-- Witness of C2: the theorem applied to the state after one WRITE by thread_a and a READ
by the same thread of the same address from PC 32. -/
theorem C2_classification_table_witness :
    current written_state = some written_trace ∧
    ∃ s' t', deliver written_state (touch thread_a 32 GPU_PATCH_READ) = some s' ∧
      current s' = some t' ∧
      (redundant_of t' (touch thread_a 32 GPU_PATCH_READ).pc =
          redundant_of written_trace (touch thread_a 32 GPU_PATCH_READ).pc + 1 ↔
        ∃ r, record_of written_trace (touch thread_a 32 GPU_PATCH_READ).memory
            (touch thread_a 32 GPU_PATCH_READ).addr = some r ∧
          r._thread_id = (touch thread_a 32 GPU_PATCH_READ).thread_id ∧
          (r._access_type = (touch thread_a 32 GPU_PATCH_READ).flags ∨
            (r._access_type = GPU_PATCH_WRITE ∧
              (touch thread_a 32 GPU_PATCH_READ).flags = GPU_PATCH_READ))) ∧
      ((¬ ∃ r, record_of written_trace (touch thread_a 32 GPU_PATCH_READ).memory
            (touch thread_a 32 GPU_PATCH_READ).addr = some r ∧
          r._thread_id = (touch thread_a 32 GPU_PATCH_READ).thread_id ∧
          (r._access_type = (touch thread_a 32 GPU_PATCH_READ).flags ∨
            (r._access_type = GPU_PATCH_WRITE ∧
              (touch thread_a 32 GPU_PATCH_READ).flags = GPU_PATCH_READ))) →
        ∀ p, redundant_of t' p = redundant_of written_trace p) ∧
      (∀ p, p ≠ (touch thread_a 32 GPU_PATCH_READ).pc →
        redundant_of t' p = redundant_of written_trace p) :=
  ⟨by decide,
    C2_classification_table written_state written_trace (touch thread_a 32 GPU_PATCH_READ)
      (by decide)⟩

/-- C1 (the code at the worked example): after analysis_begin on a new analysis object and
the five unit_access calls WRITE, WRITE, READ, READ, WRITE by one thread to one address
from PC 0x10, flush_now emits a single record with total_accesses = 5 and
redundant_accesses = 4 (rate 4/5), not 3 (rate 3/5): the stored record is never replaced,
so the final WRITE is compared with the first WRITE. -/
theorem C1_worked_example_counts_four :
    session_report
        [touch thread_a 16 GPU_PATCH_WRITE, touch thread_a 16 GPU_PATCH_WRITE,
          touch thread_a 16 GPU_PATCH_READ, touch thread_a 16 GPU_PATCH_READ,
          touch thread_a 16 GPU_PATCH_WRITE] =
      some [{ pc := 16, access_type := GPU_PATCH_WRITE, total_accesses := 5,
              redundant_accesses := 4, redundancy_rate := 4 / 5 }] := by
  have h : session
      [touch thread_a 16 GPU_PATCH_WRITE, touch thread_a 16 GPU_PATCH_WRITE,
        touch thread_a 16 GPU_PATCH_READ, touch thread_a 16 GPU_PATCH_READ,
        touch thread_a 16 GPU_PATCH_WRITE] =
      some
        { _kernel_trace :=
            [(0, [(7,
              { kernel := { ctx_id := 7, cubin_id := 1, mod_id := 1 },
                memory_access_count := [(1, [(4096, 5)])],
                access_history := [(region, [(4096, ⟨thread_a, 16, GPU_PATCH_WRITE⟩)])],
                pc_stats := [(16, ⟨5, 4, GPU_PATCH_WRITE⟩)] })])],
          _trace := some (0, 7),
          access_count := 5 } := by
    decide
  rw [session_report, h]
  simp [flush_now, Map.find, report]

/-- C3 (the code at a second touch): after a WRITE by thread_a from PC 16 and a READ by
thread_b from PC 32 of the same address, the stored AccessRecord is still the first
touch (thread_a, 16, WRITE), not the latest event (thread_b, 32, READ). -/
theorem C3_record_keeps_first_touch :
    (session_trace [touch thread_a 16 GPU_PATCH_WRITE, touch thread_b 32 GPU_PATCH_READ]).bind
        (fun t => record_of t region 4096) =
      some { _thread_id := thread_a, _pc := 16, _access_type := GPU_PATCH_WRITE } := by
  decide

/-- C5 (the code at repeated touches after another thread): thread_a wrote the address
first; thread_b then writes it twice in a row from PC 32.  The second of these writes
leaves redundant_accesses of PC 32 at 0 (total_accesses 2): it is compared with the
record of thread_a, which the first write of thread_b did not replace. -/
theorem C5_repeat_after_other_thread_not_counted :
    (session_trace
        [touch thread_a 16 GPU_PATCH_WRITE, touch thread_b 32 GPU_PATCH_WRITE,
          touch thread_b 32 GPU_PATCH_WRITE]).map
        (fun t => (total_of t 32, redundant_of t 32)) = some (2, 0) := by
  decide

/-- C6 (the code at a read after a write): thread_a read the address first; thread_b then
writes it from PC 32 and reads it back from PC 48.  The read leaves redundant_accesses
of PC 48 at 0 (total_accesses 1): it is compared with the record of thread_a. -/
theorem C6_read_after_write_not_counted :
    (session_trace
        [touch thread_a 16 GPU_PATCH_READ, touch thread_b 32 GPU_PATCH_WRITE,
          touch thread_b 48 GPU_PATCH_READ]).map
        (fun t => (total_of t 48, redundant_of t 48)) = some (1, 0) := by
  decide

/-- C7 (the code at a write after a read): thread_a writes the address from PC 16, reads it
from PC 32 and writes it again from PC 48.  The final write, which directly follows a
read by the same thread, raises redundant_accesses of PC 48 to 1: it is compared with
the record of the first write. -/
theorem C7_write_after_read_counted :
    (session_trace
        [touch thread_a 16 GPU_PATCH_WRITE, touch thread_a 32 GPU_PATCH_READ,
          touch thread_a 48 GPU_PATCH_WRITE]).map
        (fun t => (total_of t 48, redundant_of t 48)) = some (1, 1) := by
  decide

theorem total_of_access_trace (t : RedundantWriteTrace) (thread_id : ThreadId)
    (memory : Memory) (pc addr : Nat) (flags : GPUPatchFlags) (p : Nat) :
    (Map.find (access_trace t thread_id memory pc addr flags).pc_stats p).map
        (fun st => st.total_accesses) =
      if p = pc then some (total_of t pc + 1)
      else (Map.find t.pc_stats p).map (fun st => st.total_accesses) := by
  by_cases hp : p = pc
  · subst hp
    rw [if_pos rfl, access_trace_pc_stats, Map.find_assign_self]
    cases record_of t memory addr with
    | none => simp
    | some r => simp [classify_total]
  · rw [if_neg hp, access_trace_pc_stats, Map.find_assign_ne _ _ _ _ hp]

theorem deliver_all_total (es : List AccessEvent) :
    ∀ (s : RedundantWrite) (t : RedundantWriteTrace), current s = some t →
      ∃ s' t', deliver_all s es = some s' ∧ current s' = some t' ∧ s'._trace = s._trace ∧
        ∀ p, (Map.find t'.pc_stats p).map (fun st => st.total_accesses) =
          if es.countP (fun e => decide (e.pc = p)) = 0 then
            (Map.find t.pc_stats p).map (fun st => st.total_accesses)
          else some (total_of t p + es.countP (fun e => decide (e.pc = p))) := by
  induction es with
  | nil =>
    intro s t h
    exact ⟨s, t, rfl, h, rfl, fun p => by simp⟩
  | cons e es ih =>
    intro s t h
    obtain ⟨s1, hs1, hcur1, htr1⟩ := deliver_current s t e h
    obtain ⟨s', t', hs', hcur', htr', htot⟩ := ih s1 _ hcur1
    refine ⟨s', t', ?_, hcur', htr'.trans htr1, ?_⟩
    · simp [deliver_all, hs1, hs']
    · intro p
      have h1 := total_of_access_trace t e.thread_id e.memory e.pc e.addr e.flags p
      have h2 : total_of (access_trace t e.thread_id e.memory e.pc e.addr e.flags) p =
          if p = e.pc then total_of t e.pc + 1 else total_of t p := by
        unfold total_of at h1 ⊢
        rw [h1]
        by_cases hp : p = e.pc
        · simp [hp]
        · simp [hp]
      rw [htot p, h1, h2]
      by_cases hp : p = e.pc
      · subst hp
        by_cases hz : es.countP (fun e' => decide (e'.pc = e.pc)) = 0
        · simp [List.countP_cons, hz]
        · simp [List.countP_cons, hz]
          omega
      · have hp' : ¬ e.pc = p := fun h => hp h.symm
        simp [List.countP_cons, hp, hp']

theorem analysis_begin_new (s : RedundantWrite) (c : Nat) (k : Int) (cubin_id mod_id : Nat)
    (hnew : trace_at s c k = none) :
    ∃ s0, analysis_begin s c k cubin_id mod_id GPU_PATCH_TYPE_REDUNDANT_WRITE = some s0 ∧
      s0._trace = some (c, k) ∧ s0.access_count = 0 ∧
      trace_at s0 c k = some
        { kernel := { ctx_id := k, cubin_id := cubin_id, mod_id := mod_id },
          memory_access_count := [], access_history := [], pc_stats := [] } := by
  have hhas : Map.has (Map.subscript (Map.emplace c [] s._kernel_trace) c []) k = false := by
    unfold trace_at at hnew
    unfold Map.emplace Map.has Map.subscript
    cases hc : Map.find s._kernel_trace c with
    | none => simp [hc, Map.find_insert_new_self, Map.find]
    | some traces =>
      rw [hc] at hnew
      simp only [Option.some_bind] at hnew
      simp [hc, hnew]
  refine ⟨{ _kernel_trace :=
              Map.assign c
                (Map.assign k
                  { kernel := { ctx_id := k, cubin_id := cubin_id, mod_id := mod_id },
                    memory_access_count := [], access_history := [], pc_stats := [] }
                  (Map.subscript (Map.emplace c [] s._kernel_trace) c []))
                (Map.emplace c [] s._kernel_trace),
             _trace := some (c, k),
             access_count := 0 }, ?_, rfl, rfl, ?_⟩
  · simp [analysis_begin, hhas]
  · simp [trace_at, Map.find_assign_self]

/-- C4: on a freshly created trace (analysis_begin for a key that has no trace yet), any
sequence of unit_access calls is fully applied, and afterwards total_accesses of
PCStat[p] is exactly the number of calls of the sequence issued with PC p; a PC with
no call has no PCStat entry. -/
theorem C4_total_counts_calls (s : RedundantWrite) (c : Nat) (k : Int)
    (cubin_id mod_id : Nat) (hnew : trace_at s c k = none) (es : List AccessEvent) (p : Nat) :
    ∃ s0 s' t', analysis_begin s c k cubin_id mod_id GPU_PATCH_TYPE_REDUNDANT_WRITE = some s0 ∧
      deliver_all s0 es = some s' ∧ trace_at s' c k = some t' ∧
      (Map.find t'.pc_stats p).map (fun st => st.total_accesses) =
        if es.countP (fun e => decide (e.pc = p)) = 0 then none
        else some (es.countP (fun e => decide (e.pc = p))) := by
  obtain ⟨s0, hs0, htr0, _, hat0⟩ := analysis_begin_new s c k cubin_id mod_id hnew
  have hcur0 : current s0 = some
      { kernel := { ctx_id := k, cubin_id := cubin_id, mod_id := mod_id },
        memory_access_count := [], access_history := [], pc_stats := [] } := by
    simp [current, htr0, hat0]
  obtain ⟨s', t', hs', hcur', htr', htot⟩ := deliver_all_total es s0 _ hcur0
  refine ⟨s0, s', t', hs0, hs', ?_, ?_⟩
  · have : current s' = trace_at s' c k := by simp [current, htr', htr0]
    rw [← this, hcur']
  · rw [htot p]
    simp [Map.find, total_of]

/-- Witness of C4: a new analysis object, key (0, 7), and the calls WRITE, READ from PC 16
and WRITE from PC 32, counted for PC 16. -/
theorem C4_total_counts_calls_witness :
    trace_at init 0 7 = none ∧
    ∃ s0 s' t', analysis_begin init 0 7 1 1 GPU_PATCH_TYPE_REDUNDANT_WRITE = some s0 ∧
      deliver_all s0
          [touch thread_a 16 GPU_PATCH_WRITE, touch thread_b 16 GPU_PATCH_READ,
            touch thread_a 32 GPU_PATCH_WRITE] = some s' ∧
      trace_at s' 0 7 = some t' ∧
      (Map.find t'.pc_stats 16).map (fun st => st.total_accesses) =
        if [touch thread_a 16 GPU_PATCH_WRITE, touch thread_b 16 GPU_PATCH_READ,
            touch thread_a 32 GPU_PATCH_WRITE].countP (fun e => decide (e.pc = 16)) = 0
        then none
        else some ([touch thread_a 16 GPU_PATCH_WRITE, touch thread_b 16 GPU_PATCH_READ,
            touch thread_a 32 GPU_PATCH_WRITE].countP (fun e => decide (e.pc = 16))) :=
  ⟨by decide,
    C4_total_counts_calls init 0 7 1 1 (by decide)
      [touch thread_a 16 GPU_PATCH_WRITE, touch thread_b 16 GPU_PATCH_READ,
        touch thread_a 32 GPU_PATCH_WRITE] 16⟩

theorem every_trace_assign (P : RedundantWriteTrace → Prop)
    (store : Map Nat (Map Int RedundantWriteTrace)) (c : Nat)
    (traces : Map Int RedundantWriteTrace) (hs : every_trace P store)
    (ht : ∀ k t, (k, t) ∈ traces → P t) : every_trace P (Map.assign c traces store) := by
  intro c' traces' hmem k t hkt
  rcases Map.mem_assign c traces store _ hmem with h | h
  · cases h
    exact ht k t hkt
  · exact hs c' traces' h k t hkt

theorem every_trace_emplace_nil (P : RedundantWriteTrace → Prop)
    (store : Map Nat (Map Int RedundantWriteTrace)) (c : Nat) (hs : every_trace P store) :
    every_trace P (Map.emplace c [] store) := by
  intro c' traces' hmem k t hkt
  rcases Map.mem_emplace c [] store _ hmem with h | h
  · cases h
    cases hkt
  · exact hs c' traces' h k t hkt

theorem every_trace_subscript (P : RedundantWriteTrace → Prop)
    (store : Map Nat (Map Int RedundantWriteTrace)) (c : Nat) (hs : every_trace P store) :
    ∀ k t, (k, t) ∈ Map.subscript store c [] → P t := by
  intro k t hkt
  rcases Map.subscript_mem store c [] with h | h
  · rw [h] at hkt
    cases hkt
  · exact hs c _ h k t hkt

theorem reachable_every_trace (P : RedundantWriteTrace → Prop)
    (hnew : ∀ kernel, P ⟨kernel, [], [], []⟩)
    (hacc : ∀ t thread_id memory pc addr flags, P t →
      P (access_trace t thread_id memory pc addr flags))
    (hclr : ∀ t, P t → P (clear_counts t)) :
    ∀ s, Reachable s → every_trace P s._kernel_trace := by
  intro s hs
  induction hs with
  | init =>
    intro c traces hmem
    cases hmem
  | @analysis_begin s s' c k cubin_id mod_id type _ heq ih =>
    have h1 := every_trace_emplace_nil P s._kernel_trace c ih
    have h2 := every_trace_subscript P _ c h1
    unfold analysis_begin at heq
    by_cases hty : type ≠ GPU_PATCH_TYPE_REDUNDANT_WRITE
    · simp [hty] at heq
    · by_cases hhas : Map.has (Map.subscript (Map.emplace c [] s._kernel_trace) c []) k = true
      · simp only [hty, hhas, if_false, not_true_eq_false, Option.some.injEq] at heq
        rw [← heq]
        exact h1
      · simp only [hty, hhas, if_false, if_true, not_false_eq_true, Bool.false_eq_true,
          Option.some.injEq] at heq
        rw [← heq]
        apply every_trace_assign P _ c _ h1
        intro k' t' hkt
        rcases Map.mem_assign _ _ _ _ hkt with h | h
        · cases h
          exact hnew _
        · exact h2 k' t' h
  | @unit_access s s' e _ heq ih =>
    unfold deliver unit_access at heq
    cases hk : s._trace with
    | none => simp [hk] at heq
    | some key =>
      obtain ⟨c, k⟩ := key
      cases hc : Map.find s._kernel_trace c with
      | none => simp [hk, hc] at heq
      | some traces =>
        cases ht : Map.find traces k with
        | none => simp [hk, hc, ht] at heq
        | some t =>
          simp only [hk, hc, ht, Option.some.injEq] at heq
          rw [← heq]
          have hmem := Map.mem_of_find _ _ _ hc
          apply every_trace_assign P _ c _ ih
          intro k' t' hkt
          rcases Map.mem_assign _ _ _ _ hkt with h | h
          · cases h
            exact hacc _ _ _ _ _ _ (ih c traces hmem k t (Map.mem_of_find _ _ _ ht))
          · exact ih c traces hmem k' t' h
  | @analysis_end s c k _ ih => exact ih
  | @flush_now s c _ ih =>
    unfold flush_now
    cases hc : Map.find s._kernel_trace c with
    | none => exact ih
    | some traces =>
      have hmem := Map.mem_of_find _ _ _ hc
      apply every_trace_assign P _ c _ ih
      intro k' t' hkt
      rw [List.mem_map] at hkt
      obtain ⟨item, hitem, heq⟩ := hkt
      cases heq
      exact hclr _ (ih c traces hmem item.1 item.2 hitem)

theorem stats_bounded_access_trace (t : RedundantWriteTrace) (thread_id : ThreadId)
    (memory : Memory) (pc addr : Nat) (flags : GPUPatchFlags) (h : stats_bounded t) :
    stats_bounded (access_trace t thread_id memory pc addr flags) := by
  have hle : redundant_of t pc ≤ total_of t pc := by
    unfold redundant_of total_of
    cases hf : Map.find t.pc_stats pc with
    | none => simp
    | some st => simpa using h pc st (Map.mem_of_find _ _ _ hf)
  intro p st hmem
  rw [access_trace_pc_stats] at hmem
  rcases Map.mem_assign _ _ _ _ hmem with hx | hx
  · cases hr : record_of t memory addr with
    | none =>
      rw [hr] at hx
      cases hx
      simp only
      omega
    | some r =>
      rw [hr] at hx
      cases hx
      rw [classify_redundant, classify_total]
      simp only
      split <;> omega
  · exact h p st hx

/-- C8: in every state reachable from the empty store by analysis_begin, unit_access,
analysis_end and flush_now, every PCStat entry of every retained trace satisfies
redundant_accesses <= total_accesses. -/
theorem C8_redundant_le_total (s : RedundantWrite) (hs : Reachable s) :
    ∀ c traces, (c, traces) ∈ s._kernel_trace → ∀ k t, (k, t) ∈ traces →
      ∀ pc st, (pc, st) ∈ t.pc_stats → st.redundant_accesses ≤ st.total_accesses :=
  reachable_every_trace stats_bounded
    (fun _ _ _ hmem => by cases hmem)
    (fun t thread_id memory pc addr flags h =>
      stats_bounded_access_trace t thread_id memory pc addr flags h)
    (fun _ h => h) s hs

/-- Witness of C8: the state after analysis_begin and one WRITE is reachable, and its PCStat
entries are bounded. -/
theorem C8_redundant_le_total_witness :
    Reachable written_state ∧
    ∀ c traces, (c, traces) ∈ written_state._kernel_trace → ∀ k t, (k, t) ∈ traces →
      ∀ pc st, (pc, st) ∈ t.pc_stats → st.redundant_accesses ≤ st.total_accesses :=
  ⟨Reachable.unit_access (touch thread_a 16 GPU_PATCH_WRITE)
      (Reachable.analysis_begin 0 7 1 1 GPU_PATCH_TYPE_REDUNDANT_WRITE Reachable.init rfl)
      (by decide),
    C8_redundant_le_total written_state
      (Reachable.unit_access (touch thread_a 16 GPU_PATCH_WRITE)
        (Reachable.analysis_begin 0 7 1 1 GPU_PATCH_TYPE_REDUNDANT_WRITE Reachable.init rfl)
        (by decide))⟩

/-- C9: flush_now(context) on a context that has traces leaves every trace of that context
with an empty memory_access_count, and keeps each trace's kernel descriptor, pc_stats and
access_history, the kernel ids of the context, the set of contexts, the traces of every
other context, the diagnostic access_count and the handle _trace as they were. -/
theorem C9_flush_now_clears_only_counters (s : RedundantWrite) (c : Nat)
    (traces : Map Int RedundantWriteTrace) (h : Map.find s._kernel_trace c = some traces) :
    ∃ traces', Map.find (flush_now s c).1._kernel_trace c = some traces' ∧
      (∀ k t', (k, t') ∈ traces' → t'.memory_access_count = []) ∧
      traces'.map (fun item => (item.1, item.2.kernel, item.2.pc_stats, item.2.access_history)) =
        traces.map (fun item => (item.1, item.2.kernel, item.2.pc_stats, item.2.access_history)) ∧
      (flush_now s c).1._kernel_trace.map Prod.fst = s._kernel_trace.map Prod.fst ∧
      (∀ c', c' ≠ c →
        Map.find (flush_now s c).1._kernel_trace c' = Map.find s._kernel_trace c') ∧
      (flush_now s c).1.access_count = s.access_count ∧
      (flush_now s c).1._trace = s._trace := by
  have hhas : Map.has s._kernel_trace c = true := by simp [Map.has, h]
  refine ⟨traces.map (fun item => (item.1, clear_counts item.2)), ?_, ?_, ?_, ?_, ?_, ?_, ?_⟩
  · simp [flush_now, h, Map.find_assign_self]
  · intro k t' hmem
    rw [List.mem_map] at hmem
    obtain ⟨item, _, heq⟩ := hmem
    cases heq
    rfl
  · rw [List.map_map]
    rfl
  · simp only [flush_now, h]
    exact Map.keys_assign _ _ _ hhas
  · intro c' hc'
    simp only [flush_now, h]
    exact Map.find_assign_ne _ _ _ _ hc'
  · simp [flush_now, h]
  · simp [flush_now, h]

/-- Witness of C9: flush_now(0) on the state after analysis_begin(0, 7) and one WRITE. -/
theorem C9_flush_now_clears_only_counters_witness :
    Map.find written_state._kernel_trace 0 = some [(7, written_trace)] ∧
    ∃ traces', Map.find (flush_now written_state 0).1._kernel_trace 0 = some traces' ∧
      (∀ k t', (k, t') ∈ traces' → t'.memory_access_count = []) ∧
      traces'.map (fun item => (item.1, item.2.kernel, item.2.pc_stats, item.2.access_history)) =
        [(7, written_trace)].map
          (fun item => (item.1, item.2.kernel, item.2.pc_stats, item.2.access_history)) ∧
      (flush_now written_state 0).1._kernel_trace.map Prod.fst =
        written_state._kernel_trace.map Prod.fst ∧
      (∀ c', c' ≠ 0 →
        Map.find (flush_now written_state 0).1._kernel_trace c' =
          Map.find written_state._kernel_trace c') ∧
      (flush_now written_state 0).1.access_count = written_state.access_count ∧
      (flush_now written_state 0).1._trace = written_state._trace :=
  ⟨by decide, C9_flush_now_clears_only_counters written_state 0 [(7, written_trace)] (by decide)⟩

/-- C10: flush_now on a context that has no entry in the trace store returns the analysis
object unchanged (no context entry created, no trace modified, access_count and handle as
before) and emits no PC records. -/
theorem C10_flush_now_unknown_context (s : RedundantWrite) (c : Nat)
    (h : Map.find s._kernel_trace c = none) : flush_now s c = (s, []) := by
  simp [flush_now, h]

/-- Witness of C10: context 1 was never begun in the state that holds a trace of
context 0. -/
theorem C10_flush_now_unknown_context_witness :
    Map.find written_state._kernel_trace 1 = none ∧ flush_now written_state 1 = (written_state, []) :=
  ⟨by decide, C10_flush_now_unknown_context written_state 1 (by decide)⟩

/-- C11 (counterexample): on the state after analysis_begin(0, 7) and one WRITE, the global
flush leaves the AccessCounter mapping of the trace non-empty and emits no record
although the trace has one PCStat entry; flush_now over every context would clear the
counter and emit one record. -/
theorem C11_flush_differs_from_flush_now_everywhere :
    (trace_at (flush written_state).1 0 7).map (fun t => t.memory_access_count) =
        some [(1, [(4096, 1)])] ∧
      (flush written_state).2 = [] ∧
      written_trace.pc_stats.length = 1 ∧
      (trace_at (flush_as_specified written_state).1 0 7).map (fun t => t.memory_access_count) =
        some [] ∧
      (flush_as_specified written_state).2.length = 1 := by
  refine ⟨by decide, rfl, rfl, by decide, by decide⟩

/-- C11 (amended): the global flush does nothing: it returns the analysis object unchanged,
so every trace keeps its AccessCounter mapping, pc_stats and access_history, and it
emits no record. -/
theorem C11_flush_changes_nothing (s : RedundantWrite) :
    (flush s).1 = s ∧ (flush s).2 = [] ∧
      ∀ c k, trace_at (flush s).1 c k = trace_at s c k :=
  ⟨rfl, rfl, fun _ _ => rfl⟩

theorem analysis_begin_existing (s : RedundantWrite) (c : Nat) (k : Int)
    (cubin_id mod_id : Nat) (t : RedundantWriteTrace) (h : trace_at s c k = some t) :
    analysis_begin s c k cubin_id mod_id GPU_PATCH_TYPE_REDUNDANT_WRITE =
      some { s with _trace := some (c, k) } := by
  unfold trace_at at h
  cases hc : Map.find s._kernel_trace c with
  | none => simp [hc] at h
  | some traces =>
    rw [hc] at h
    simp only [Option.some_bind] at h
    have hst : Map.emplace c [] s._kernel_trace = s._kernel_trace := by
      simp [Map.emplace, Map.has, hc]
    have hhas : Map.has (Map.subscript s._kernel_trace c []) k = true := by
      simp [Map.has, Map.subscript, hc, h]
    simp [analysis_begin, hst, hhas]

/-- C12: when a trace exists for (context, kernelId), analysis_begin returns the analysis
object with only the handle changed: the store (that trace, every other trace, no new
trace) and access_count are as before, the handle is bound to the existing trace, and
a further analysis_begin for the same key returns the same state again. -/
theorem C12_analysis_begin_existing_trace (s : RedundantWrite) (c : Nat) (k : Int)
    (cubin_id mod_id : Nat) (t : RedundantWriteTrace) (h : trace_at s c k = some t) :
    ∃ s', analysis_begin s c k cubin_id mod_id GPU_PATCH_TYPE_REDUNDANT_WRITE = some s' ∧
      s'._kernel_trace = s._kernel_trace ∧ s'.access_count = s.access_count ∧
      s'._trace = some (c, k) ∧ current s' = some t ∧
      ∀ cubin_id' mod_id',
        analysis_begin s' c k cubin_id' mod_id' GPU_PATCH_TYPE_REDUNDANT_WRITE = some s' := by
  refine ⟨{ s with _trace := some (c, k) }, analysis_begin_existing s c k cubin_id mod_id t h,
    rfl, rfl, rfl, ?_, ?_⟩
  · simpa [current] using h
  · intro cubin_id' mod_id'
    exact analysis_begin_existing { s with _trace := some (c, k) } c k cubin_id' mod_id' t h

/-- Witness of C12: analysis_begin(0, 7) on the state that already holds the trace of
(0, 7). -/
theorem C12_analysis_begin_existing_trace_witness :
    trace_at written_state 0 7 = some written_trace ∧
    ∃ s', analysis_begin written_state 0 7 1 1 GPU_PATCH_TYPE_REDUNDANT_WRITE = some s' ∧
      s'._kernel_trace = written_state._kernel_trace ∧
      s'.access_count = written_state.access_count ∧
      s'._trace = some (0, 7) ∧ current s' = some written_trace ∧
      ∀ cubin_id' mod_id',
        analysis_begin s' 0 7 cubin_id' mod_id' GPU_PATCH_TYPE_REDUNDANT_WRITE = some s' :=
  ⟨by decide, C12_analysis_begin_existing_trace written_state 0 7 1 1 written_trace (by decide)⟩

theorem find_emplace_ne {κ ν : Type} [DecidableEq κ] [LT κ]
    [DecidableRel (fun (a b : κ) => a < b)] (k k' : κ) (v : ν) (m : Map κ ν) (h : k' ≠ k) :
    Map.find (Map.emplace k v m) k' = Map.find m k' := by
  unfold Map.emplace
  split
  · rfl
  · exact Map.find_insert_new_ne k k' v m h

theorem subscript_emplace_nil (store : Map Nat (Map Int RedundantWriteTrace)) (c : Nat) :
    Map.subscript (Map.emplace c [] store) c [] = Map.subscript store c [] := by
  unfold Map.subscript
  rw [find_emplace_self]
  cases Map.find store c <;> rfl

theorem find_subscript_store (store : Map Nat (Map Int RedundantWriteTrace)) (c : Nat)
    (k : Int) :
    Map.find (Map.subscript store c []) k = (Map.find store c).bind (fun tr => Map.find tr k) := by
  unfold Map.subscript
  cases Map.find store c <;> rfl

theorem analysis_begin_new_eq (s : RedundantWrite) (c : Nat) (k : Int) (cubin_id mod_id : Nat)
    (hnew : trace_at s c k = none) :
    analysis_begin s c k cubin_id mod_id GPU_PATCH_TYPE_REDUNDANT_WRITE = some
      { _kernel_trace :=
          Map.assign c
            (Map.assign k
              { kernel := { ctx_id := k, cubin_id := cubin_id, mod_id := mod_id },
                memory_access_count := [], access_history := [], pc_stats := [] }
              (Map.subscript s._kernel_trace c []))
            (Map.emplace c [] s._kernel_trace),
        _trace := some (c, k),
        access_count := 0 } := by
  have hhas : Map.has (Map.subscript s._kernel_trace c []) k = false := by
    unfold Map.has
    rw [find_subscript_store]
    unfold trace_at at hnew
    rw [hnew]
    rfl
  simp [analysis_begin, subscript_emplace_nil, hhas]

theorem analysis_begin_other (s s0 : RedundantWrite) (c : Nat) (k : Int)
    (cubin_id mod_id : Nat) (type : GPUPatchType)
    (hb : analysis_begin s c k cubin_id mod_id type = some s0) (c' : Nat) (k' : Int)
    (hne : (c', k') ≠ (c, k)) : trace_at s0 c' k' = trace_at s c' k' := by
  have hty : type = GPU_PATCH_TYPE_REDUNDANT_WRITE := by
    by_contra hty
    simp [analysis_begin, hty] at hb
  subst hty
  cases ht : trace_at s c k with
  | some t =>
    rw [analysis_begin_existing s c k cubin_id mod_id t ht] at hb
    cases hb
    rfl
  | none =>
    rw [analysis_begin_new_eq s c k cubin_id mod_id ht] at hb
    cases hb
    by_cases hc : c' = c
    · subst hc
      have hk : k' ≠ k := fun hk => hne (by rw [hk])
      simp only [trace_at, Map.find_assign_self, Option.some_bind]
      rw [Map.find_assign_ne _ _ _ _ hk, find_subscript_store]
    · simp only [trace_at]
      rw [Map.find_assign_ne _ _ _ _ hc, find_emplace_ne _ _ _ _ hc]

theorem sum_replace {κ ν : Type} [DecidableEq κ] (f : κ × ν → Nat) (k : κ) (v v0 : ν)
    (m : Map κ ν) (h : Map.find m k = some v0) :
    ((Map.replace k v m).map f).sum + f (k, v0) = (m.map f).sum + f (k, v) := by
  induction m with
  | nil => simp [Map.find] at h
  | cons hd tl ih =>
    obtain ⟨k1, v1⟩ := hd
    by_cases h1 : k = k1
    · subst h1
      simp only [Map.find, if_true, Option.some.injEq] at h
      subst h
      simp only [Map.replace, if_true, List.map_cons, List.sum_cons]
      omega
    · simp only [Map.find, h1, if_false] at h
      have := ih h
      simp only [Map.replace, h1, if_false, List.map_cons, List.sum_cons]
      omega

theorem sum_insert_new {κ ν : Type} [LT κ] [DecidableRel (fun (a b : κ) => a < b)]
    (f : κ × ν → Nat) (k : κ) (v : ν) (m : Map κ ν) :
    ((Map.insert_new k v m).map f).sum = (m.map f).sum + f (k, v) := by
  induction m with
  | nil => simp [Map.insert_new]
  | cons hd tl ih =>
    obtain ⟨k1, v1⟩ := hd
    by_cases h2 : k < k1
    · simp only [Map.insert_new, h2, if_true, List.map_cons, List.sum_cons]
      omega
    · simp only [Map.insert_new, h2, if_false, List.map_cons, List.sum_cons, ih]
      omega

theorem sum_assign {κ ν : Type} [DecidableEq κ] [LT κ] [DecidableRel (fun (a b : κ) => a < b)]
    (f : κ × ν → Nat) (k : κ) (v : ν) (m : Map κ ν) :
    ((Map.assign k v m).map f).sum + ((Map.find m k).map (fun v0 => f (k, v0))).getD 0 =
      (m.map f).sum + f (k, v) := by
  unfold Map.assign Map.has
  cases h : Map.find m k with
  | none => simpa using sum_insert_new f k v m
  | some v0 => simpa using sum_replace f k v v0 m h

theorem length_emplace {κ ν : Type} [DecidableEq κ] [LT κ]
    [DecidableRel (fun (a b : κ) => a < b)] (k : κ) (v : ν) (m : Map κ ν) :
    (Map.emplace k v m).length = m.length + (if (Map.find m k).isSome then 0 else 1) := by
  unfold Map.emplace Map.has
  cases h : Map.find m k with
  | some w => simp
  | none =>
    have := sum_insert_new (fun _ => 1) k v m
    simpa using this

theorem trace_count_begin_new (s : RedundantWrite) (c : Nat) (k : Int)
    (fresh : RedundantWriteTrace) (hnew : trace_at s c k = none) :
    ((Map.assign c (Map.assign k fresh (Map.subscript s._kernel_trace c []))
        (Map.emplace c [] s._kernel_trace)).map (fun entry => entry.2.length)).sum =
      (s._kernel_trace.map (fun entry => entry.2.length)).sum + 1 := by
  have h1 := sum_assign (fun entry : Nat × Map Int RedundantWriteTrace => entry.2.length) c
    (Map.assign k fresh (Map.subscript s._kernel_trace c [])) (Map.emplace c [] s._kernel_trace)
  rw [find_emplace_self] at h1
  have h2 : ((Map.emplace c [] s._kernel_trace).map
      (fun entry => entry.2.length)).sum =
      (s._kernel_trace.map (fun entry => entry.2.length)).sum := by
    unfold Map.emplace
    split
    · rfl
    · rw [sum_insert_new]
      rfl
  have h3 : (Map.assign k fresh (Map.subscript s._kernel_trace c [])).length =
      (Map.subscript s._kernel_trace c []).length + 1 := by
    have hf : Map.find (Map.subscript s._kernel_trace c []) k = none := by
      rw [find_subscript_store]
      exact hnew
    unfold Map.assign Map.has
    rw [hf]
    have := sum_insert_new (fun _ => 1) k fresh (Map.subscript s._kernel_trace c [])
    simpa using this
  have h4 : ((Map.find s._kernel_trace c).getD []) = Map.subscript s._kernel_trace c [] := rfl
  simp only [Option.map_some', Option.getD_some, h4] at h1
  rw [h2, h3] at h1
  omega

/-- C13: when no trace exists for (context, kernelId), analysis_begin succeeds, stores under
that key a trace whose memory_access_count, access_history and pc_stats are empty, sets
access_count to 0, leaves the trace (or absence of a trace) of every other key as it was,
binds the handle to the new trace, and the number of retained traces grows by exactly
one. -/
theorem C13_analysis_begin_creates_trace (s : RedundantWrite) (c : Nat) (k : Int)
    (cubin_id mod_id : Nat) (hnew : trace_at s c k = none) :
    ∃ s0, analysis_begin s c k cubin_id mod_id GPU_PATCH_TYPE_REDUNDANT_WRITE = some s0 ∧
      trace_at s0 c k = some
        { kernel := { ctx_id := k, cubin_id := cubin_id, mod_id := mod_id },
          memory_access_count := [], access_history := [], pc_stats := [] } ∧
      s0.access_count = 0 ∧
      (∀ c' k', (c', k') ≠ (c, k) → trace_at s0 c' k' = trace_at s c' k') ∧
      s0._trace = some (c, k) ∧
      current s0 = trace_at s0 c k ∧
      trace_count s0 = trace_count s + 1 := by
  obtain ⟨s0, hs0, htr, hcnt, hat⟩ := analysis_begin_new s c k cubin_id mod_id hnew
  refine ⟨s0, hs0, hat, hcnt, ?_, htr, ?_, ?_⟩
  · intro c' k' hne
    exact analysis_begin_other s s0 c k cubin_id mod_id _ hs0 c' k' hne
  · simp [current, htr]
  · rw [analysis_begin_new_eq s c k cubin_id mod_id hnew] at hs0
    cases hs0
    exact trace_count_begin_new s c k _ hnew

/-- Witness of C13: analysis_begin(1, 3) on the state that only holds the trace of (0, 7). -/
theorem C13_analysis_begin_creates_trace_witness :
    trace_at written_state 1 3 = none ∧
    ∃ s0, analysis_begin written_state 1 3 2 5 GPU_PATCH_TYPE_REDUNDANT_WRITE = some s0 ∧
      trace_at s0 1 3 = some
        { kernel := { ctx_id := 3, cubin_id := 2, mod_id := 5 },
          memory_access_count := [], access_history := [], pc_stats := [] } ∧
      s0.access_count = 0 ∧
      (∀ c' k', (c', k') ≠ (1, 3) → trace_at s0 c' k' = trace_at written_state c' k') ∧
      s0._trace = some (1, 3) ∧
      current s0 = trace_at s0 1 3 ∧
      trace_count s0 = trace_count written_state + 1 :=
  ⟨by decide, C13_analysis_begin_creates_trace written_state 1 3 2 5 (by decide)⟩

/-- C14: analysis_end sets the handle to no active trace and changes nothing else: the
trace store and access_count are as before, every trace (the one that was bound
included) is still stored with the same contents, and flush_now for any context
emits the same records as it would have before the call. -/
theorem C14_analysis_end_only_unbinds (s : RedundantWrite) (cpu_thread : Nat)
    (kernel_id : Int) :
    (analysis_end s cpu_thread kernel_id)._trace = none ∧
      current (analysis_end s cpu_thread kernel_id) = none ∧
      (analysis_end s cpu_thread kernel_id)._kernel_trace = s._kernel_trace ∧
      (analysis_end s cpu_thread kernel_id).access_count = s.access_count ∧
      (∀ c k, trace_at (analysis_end s cpu_thread kernel_id) c k = trace_at s c k) ∧
      ∀ c, (flush_now (analysis_end s cpu_thread kernel_id) c).2 = (flush_now s c).2 := by
  refine ⟨rfl, rfl, rfl, rfl, fun _ _ => rfl, ?_⟩
  intro c
  unfold flush_now analysis_end
  cases Map.find s._kernel_trace c <;> rfl

theorem deliver_current_count (s : RedundantWrite) (t : RedundantWriteTrace) (e : AccessEvent)
    (h : current s = some t) :
    ∃ s', deliver s e = some s' ∧
      current s' = some (access_trace t e.thread_id e.memory e.pc e.addr e.flags) ∧
      s'._trace = s._trace ∧ s'.access_count = s.access_count + 1 := by
  obtain ⟨c, k, traces, hk, hc, ht⟩ := current_unfold s t h
  refine ⟨_, unit_access_bound s c k traces t hk hc ht e, ?_, rfl, rfl⟩
  simp [current, trace_at, hk, Map.find_assign_self]

theorem access_trace_counts (t : RedundantWriteTrace) (thread_id : ThreadId)
    (memory : Memory) (pc addr : Nat) (flags : GPUPatchFlags) :
    (access_trace t thread_id memory pc addr flags).memory_access_count =
      Map.assign memory.op_id
        (Map.assign addr
          (Map.subscript (Map.subscript t.memory_access_count memory.op_id []) addr 0 + 1)
          (Map.subscript t.memory_access_count memory.op_id []))
        t.memory_access_count := by
  unfold access_trace
  simp only
  cases Map.find (Map.subscript t.access_history memory []) addr with
  | none => rfl
  | some r => rfl

theorem find_counts (t : RedundantWriteTrace) (memory : Memory) (addr : Nat) :
    Map.find (Map.subscript t.memory_access_count memory.op_id []) addr =
      counter_of t memory addr := by
  unfold Map.subscript counter_of
  cases Map.find t.memory_access_count memory.op_id <;> rfl

theorem counter_of_access_trace_self (t : RedundantWriteTrace) (thread_id : ThreadId)
    (memory : Memory) (pc addr : Nat) (flags : GPUPatchFlags) :
    counter_of (access_trace t thread_id memory pc addr flags) memory addr =
      some ((counter_of t memory addr).getD 0 + 1) := by
  conv_lhs => unfold counter_of
  rw [access_trace_counts, Map.find_assign_self, Option.some_bind, Map.find_assign_self]
  congr 2
  unfold Map.subscript
  rw [← find_counts]
  rfl

theorem counter_of_access_trace_other (t : RedundantWriteTrace) (thread_id : ThreadId)
    (memory : Memory) (pc addr : Nat) (flags : GPUPatchFlags) (m : Memory) (a : Nat)
    (hne : m.op_id ≠ memory.op_id ∨ a ≠ addr) :
    counter_of (access_trace t thread_id memory pc addr flags) m a = counter_of t m a := by
  conv_lhs => unfold counter_of
  rw [access_trace_counts]
  by_cases hm : m.op_id = memory.op_id
  · have ha : a ≠ addr := by
      rcases hne with h | h
      · exact absurd hm h
      · exact h
    rw [hm, Map.find_assign_self, Option.some_bind, Map.find_assign_ne _ _ _ _ ha, find_counts]
    unfold counter_of
    rw [hm]
  · rw [Map.find_assign_ne _ _ _ _ hm]
    rfl

theorem find_pc_stats_access_trace_other (t : RedundantWriteTrace) (thread_id : ThreadId)
    (memory : Memory) (pc addr : Nat) (flags : GPUPatchFlags) (p : Nat) (hp : p ≠ pc) :
    Map.find (access_trace t thread_id memory pc addr flags).pc_stats p =
      Map.find t.pc_stats p := by
  rw [access_trace_pc_stats, Map.find_assign_ne _ _ _ _ hp]

theorem total_of_access_trace_self (t : RedundantWriteTrace) (thread_id : ThreadId)
    (memory : Memory) (pc addr : Nat) (flags : GPUPatchFlags) :
    total_of (access_trace t thread_id memory pc addr flags) pc = total_of t pc + 1 := by
  have h := total_of_access_trace t thread_id memory pc addr flags pc
  rw [if_pos rfl] at h
  conv_lhs => unfold total_of
  rw [h]
  rfl

/-- C15: one unit_access call on a bound trace, whatever its classification, raises the
count stored for the event's (region, address) by exactly 1 (to 1 when there was none),
raises total_accesses of the event's PC by exactly 1 and access_count by exactly 1; the
count of every other counter entry (the counter map is keyed by the region's op_id)
and the PCStat of every other PC stay as they were. -/
theorem C15_unconditional_counters (s : RedundantWrite) (t : RedundantWriteTrace)
    (e : AccessEvent) (hbound : current s = some t) :
    ∃ s' t', deliver s e = some s' ∧ current s' = some t' ∧
      counter_of t' e.memory e.addr = some ((counter_of t e.memory e.addr).getD 0 + 1) ∧
      (∀ m a, (m.op_id ≠ e.memory.op_id ∨ a ≠ e.addr) → counter_of t' m a = counter_of t m a) ∧
      total_of t' e.pc = total_of t e.pc + 1 ∧
      (∀ p, p ≠ e.pc → Map.find t'.pc_stats p = Map.find t.pc_stats p) ∧
      s'.access_count = s.access_count + 1 := by
  obtain ⟨s', hs', hcur, _, hcnt⟩ := deliver_current_count s t e hbound
  exact ⟨s', _, hs', hcur, counter_of_access_trace_self _ _ _ _ _ _,
    fun m a hne => counter_of_access_trace_other _ _ _ _ _ _ m a hne,
    total_of_access_trace_self _ _ _ _ _ _,
    fun p hp => find_pc_stats_access_trace_other _ _ _ _ _ _ p hp, hcnt⟩

/-- Witness of C15: a READ by thread_b from PC 32 delivered to the state after one WRITE. -/
theorem C15_unconditional_counters_witness :
    current written_state = some written_trace ∧
    ∃ s' t', deliver written_state (touch thread_b 32 GPU_PATCH_READ) = some s' ∧
      current s' = some t' ∧
      counter_of t' (touch thread_b 32 GPU_PATCH_READ).memory
          (touch thread_b 32 GPU_PATCH_READ).addr =
        some ((counter_of written_trace (touch thread_b 32 GPU_PATCH_READ).memory
          (touch thread_b 32 GPU_PATCH_READ).addr).getD 0 + 1) ∧
      (∀ m a, (m.op_id ≠ (touch thread_b 32 GPU_PATCH_READ).memory.op_id ∨
          a ≠ (touch thread_b 32 GPU_PATCH_READ).addr) →
        counter_of t' m a = counter_of written_trace m a) ∧
      total_of t' (touch thread_b 32 GPU_PATCH_READ).pc =
        total_of written_trace (touch thread_b 32 GPU_PATCH_READ).pc + 1 ∧
      (∀ p, p ≠ (touch thread_b 32 GPU_PATCH_READ).pc →
        Map.find t'.pc_stats p = Map.find written_trace.pc_stats p) ∧
      s'.access_count = written_state.access_count + 1 :=
  ⟨by decide,
    C15_unconditional_counters written_state written_trace (touch thread_b 32 GPU_PATCH_READ)
      (by decide)⟩

theorem classify_access_type (r : AccessRecord) (thread_id : ThreadId) (flags : GPUPatchFlags)
    (stat : PCStats) : (classify r thread_id flags stat).access_type = stat.access_type := by
  unfold classify
  split
  · split
    · rfl
    · split <;> rfl
  · rfl

theorem access_type_access_trace (t : RedundantWriteTrace) (thread_id : ThreadId)
    (memory : Memory) (pc addr : Nat) (flags : GPUPatchFlags) (p : Nat) :
    (Map.find (access_trace t thread_id memory pc addr flags).pc_stats p).map
        (fun st => st.access_type) =
      if p = pc then
        some (((Map.find t.pc_stats pc).map (fun st => st.access_type)).getD flags)
      else (Map.find t.pc_stats p).map (fun st => st.access_type) := by
  have hsub : (Map.subscript t.pc_stats pc ⟨0, 0, flags⟩).access_type =
      ((Map.find t.pc_stats pc).map (fun st => st.access_type)).getD flags := by
    unfold Map.subscript
    cases Map.find t.pc_stats pc <;> rfl
  by_cases hp : p = pc
  · subst hp
    rw [if_pos rfl, access_trace_pc_stats, Map.find_assign_self]
    cases record_of t memory addr with
    | none => simp [hsub]
    | some r => simp [classify_access_type, hsub]
  · rw [if_neg hp, access_trace_pc_stats, Map.find_assign_ne _ _ _ _ hp]

theorem deliver_all_access_type (es : List AccessEvent) :
    ∀ (s : RedundantWrite) (t : RedundantWriteTrace), current s = some t →
      ∃ s' t', deliver_all s es = some s' ∧ current s' = some t' ∧
        ∀ p, (Map.find t'.pc_stats p).map (fun st => st.access_type) =
          match (Map.find t.pc_stats p).map (fun st => st.access_type) with
          | some a => some a
          | none => (es.find? (fun e => decide (e.pc = p))).map (fun e => e.flags) := by
  induction es with
  | nil =>
    intro s t h
    refine ⟨s, t, rfl, h, fun p => ?_⟩
    cases (Map.find t.pc_stats p).map (fun st => st.access_type) <;> rfl
  | cons e es ih =>
    intro s t h
    obtain ⟨s1, hs1, hcur1, _⟩ := deliver_current s t e h
    obtain ⟨s', t', hs', hcur', hty⟩ := ih s1 _ hcur1
    refine ⟨s', t', ?_, hcur', ?_⟩
    · simp [deliver_all, hs1, hs']
    · intro p
      rw [hty p, access_type_access_trace]
      by_cases hp : p = e.pc
      · subst hp
        cases (Map.find t.pc_stats e.pc).map (fun st => st.access_type) with
        | none => simp [List.find?_cons]
        | some a => simp
      · have hp' : ¬ e.pc = p := fun h => hp h.symm
        rw [if_neg hp]
        cases (Map.find t.pc_stats p).map (fun st => st.access_type) with
        | none => simp [List.find?_cons, hp']
        | some a => rfl

/-- C16: access_type of a PCStat is fixed at the first occurrence of its PC.  For every
bound trace and every sequence of unit_access calls: a PC without entry before the
sequence (in particular any PC of a new trace) ends with the access kind of the first
call of the sequence issued with that PC, and a PC that already had an entry keeps its
access_type whatever the kinds of the later calls. -/
theorem C16_access_type_fixed_at_first_call (s : RedundantWrite) (t : RedundantWriteTrace)
    (hbound : current s = some t) (es : List AccessEvent) (p : Nat) :
    ∃ s' t', deliver_all s es = some s' ∧ current s' = some t' ∧
      (Map.find t.pc_stats p = none →
        (Map.find t'.pc_stats p).map (fun st => st.access_type) =
          (es.find? (fun e => decide (e.pc = p))).map (fun e => e.flags)) ∧
      (∀ st, Map.find t.pc_stats p = some st →
        (Map.find t'.pc_stats p).map (fun st' => st'.access_type) = some st.access_type) := by
  obtain ⟨s', t', hs', hcur', hty⟩ := deliver_all_access_type es s t hbound
  refine ⟨s', t', hs', hcur', ?_, ?_⟩
  · intro hnone
    rw [hty p, hnone]
    rfl
  · intro st hsome
    rw [hty p, hsome]
    rfl

/-- Witness of C16: on the state after one WRITE from PC 16, a READ from PC 16, a READ from
PC 32 and a WRITE from PC 32 are delivered; observed at PC 32. -/
theorem C16_access_type_fixed_at_first_call_witness :
    current written_state = some written_trace ∧
    ∃ s' t', deliver_all written_state
          [touch thread_a 16 GPU_PATCH_READ, touch thread_a 32 GPU_PATCH_READ,
            touch thread_b 32 GPU_PATCH_WRITE] = some s' ∧
      current s' = some t' ∧
      (Map.find written_trace.pc_stats 32 = none →
        (Map.find t'.pc_stats 32).map (fun st => st.access_type) =
          ([touch thread_a 16 GPU_PATCH_READ, touch thread_a 32 GPU_PATCH_READ,
            touch thread_b 32 GPU_PATCH_WRITE].find? (fun e => decide (e.pc = 32))).map
              (fun e => e.flags)) ∧
      (∀ st, Map.find written_trace.pc_stats 32 = some st →
        (Map.find t'.pc_stats 32).map (fun st' => st'.access_type) = some st.access_type) :=
  ⟨by decide,
    C16_access_type_fixed_at_first_call written_state written_trace (by decide)
      [touch thread_a 16 GPU_PATCH_READ, touch thread_a 32 GPU_PATCH_READ,
        touch thread_b 32 GPU_PATCH_WRITE] 32⟩

theorem stats_positive_access_trace (t : RedundantWriteTrace) (thread_id : ThreadId)
    (memory : Memory) (pc addr : Nat) (flags : GPUPatchFlags) (h : stats_positive t) :
    stats_positive (access_trace t thread_id memory pc addr flags) := by
  intro p st hmem
  rw [access_trace_pc_stats] at hmem
  rcases Map.mem_assign _ _ _ _ hmem with hx | hx
  · cases hr : record_of t memory addr with
    | none =>
      rw [hr] at hx
      cases hx
      simp only
      omega
    | some r =>
      rw [hr] at hx
      cases hx
      rw [classify_total]
      simp only
      omega
  · exact h p st hx

theorem reachable_stats (s : RedundantWrite) (hs : Reachable s) :
    every_trace (fun t => stats_bounded t ∧ stats_positive t) s._kernel_trace :=
  reachable_every_trace (fun t => stats_bounded t ∧ stats_positive t)
    (fun _ => ⟨fun _ _ hmem => (by cases hmem), fun _ _ hmem => (by cases hmem)⟩)
    (fun t thread_id memory pc addr flags h =>
      ⟨stats_bounded_access_trace t thread_id memory pc addr flags h.1,
        stats_positive_access_trace t thread_id memory pc addr flags h.2⟩)
    (fun _ h => h) s hs

theorem written_state_reachable : Reachable written_state :=
  Reachable.unit_access (touch thread_a 16 GPU_PATCH_WRITE)
    (Reachable.analysis_begin 0 7 1 1 GPU_PATCH_TYPE_REDUNDANT_WRITE Reachable.init rfl)
    (by decide)

theorem mem_flush_now_records (s : RedundantWrite) (c : Nat) (r : PCRecord)
    (hr : r ∈ (flush_now s c).2) :
    ∃ traces k t pc st, Map.find s._kernel_trace c = some traces ∧ (k, t) ∈ traces ∧
      (pc, st) ∈ t.pc_stats ∧ r = report (pc, st) := by
  unfold flush_now at hr
  cases hc : Map.find s._kernel_trace c with
  | none => simp [hc] at hr
  | some traces =>
    simp only [hc, List.mem_flatten, List.mem_map] at hr
    obtain ⟨l, ⟨item, hitem, hl⟩, hrl⟩ := hr
    rw [← hl, List.mem_map] at hrl
    obtain ⟨entry, hentry, hre⟩ := hrl
    exact ⟨traces, item.1, item.2, entry.1, entry.2, rfl, hitem, hentry, hre.symm⟩

/-- C17: in every reachable state, every record flush_now emits is the record of one stored
PCStat entry of one trace of the context: it carries that entry's PC, access_type,
total_accesses and redundant_accesses, its total_accesses is not 0, and its
redundancy_rate is the exact rational quotient redundant_accesses / total_accesses,
which lies in [0, 1]. -/
theorem C17_emitted_record_rate (s : RedundantWrite) (hs : Reachable s) (c : Nat)
    (r : PCRecord) (hr : r ∈ (flush_now s c).2) :
    ∃ traces k t pc st, Map.find s._kernel_trace c = some traces ∧ (k, t) ∈ traces ∧
      (pc, st) ∈ t.pc_stats ∧
      r.pc = pc ∧ r.access_type = st.access_type ∧
      r.total_accesses = st.total_accesses ∧ r.redundant_accesses = st.redundant_accesses ∧
      r.total_accesses ≠ 0 ∧
      r.redundancy_rate = (r.redundant_accesses : ℚ) / (r.total_accesses : ℚ) ∧
      r.redundancy_rate * (r.total_accesses : ℚ) = (r.redundant_accesses : ℚ) ∧
      0 ≤ r.redundancy_rate ∧ r.redundancy_rate ≤ 1 := by
  obtain ⟨traces, k, t, pc, st, hc, hkt, hst, hrep⟩ := mem_flush_now_records s c r hr
  have hinv := reachable_stats s hs c traces (Map.mem_of_find _ _ _ hc) k t hkt
  have hle : st.redundant_accesses ≤ st.total_accesses := hinv.1 pc st hst
  have hpos : 1 ≤ st.total_accesses := hinv.2 pc st hst
  have hposq : (0 : ℚ) < (st.total_accesses : ℚ) := by exact_mod_cast hpos
  have hleq : (st.redundant_accesses : ℚ) ≤ (st.total_accesses : ℚ) := by exact_mod_cast hle
  subst hrep
  refine ⟨traces, k, t, pc, st, hc, hkt, hst, rfl, rfl, rfl, rfl, ?_, rfl, ?_, ?_, ?_⟩
  · show st.total_accesses ≠ 0
    omega
  · show (st.redundant_accesses : ℚ) / (st.total_accesses : ℚ) * (st.total_accesses : ℚ) =
      (st.redundant_accesses : ℚ)
    exact div_mul_cancel₀ _ (ne_of_gt hposq)
  · show (0 : ℚ) ≤ (st.redundant_accesses : ℚ) / (st.total_accesses : ℚ)
    exact div_nonneg (Nat.cast_nonneg _) (le_of_lt hposq)
  · show (st.redundant_accesses : ℚ) / (st.total_accesses : ℚ) ≤ 1
    exact (div_le_one hposq).mpr hleq

/-- Witness of C17: the record flush_now(0) emits on the state after one WRITE from
PC 16. -/
theorem C17_emitted_record_rate_witness :
    Reachable written_state ∧
    report (16, ⟨1, 0, GPU_PATCH_WRITE⟩) ∈ (flush_now written_state 0).2 ∧
    ∃ traces k t pc st, Map.find written_state._kernel_trace 0 = some traces ∧
      (k, t) ∈ traces ∧ (pc, st) ∈ t.pc_stats ∧
      (report (16, ⟨1, 0, GPU_PATCH_WRITE⟩)).pc = pc ∧
      (report (16, ⟨1, 0, GPU_PATCH_WRITE⟩)).access_type = st.access_type ∧
      (report (16, ⟨1, 0, GPU_PATCH_WRITE⟩)).total_accesses = st.total_accesses ∧
      (report (16, ⟨1, 0, GPU_PATCH_WRITE⟩)).redundant_accesses = st.redundant_accesses ∧
      (report (16, ⟨1, 0, GPU_PATCH_WRITE⟩)).total_accesses ≠ 0 ∧
      (report (16, ⟨1, 0, GPU_PATCH_WRITE⟩)).redundancy_rate =
        ((report (16, ⟨1, 0, GPU_PATCH_WRITE⟩)).redundant_accesses : ℚ) /
          ((report (16, ⟨1, 0, GPU_PATCH_WRITE⟩)).total_accesses : ℚ) ∧
      (report (16, ⟨1, 0, GPU_PATCH_WRITE⟩)).redundancy_rate *
          ((report (16, ⟨1, 0, GPU_PATCH_WRITE⟩)).total_accesses : ℚ) =
        ((report (16, ⟨1, 0, GPU_PATCH_WRITE⟩)).redundant_accesses : ℚ) ∧
      0 ≤ (report (16, ⟨1, 0, GPU_PATCH_WRITE⟩)).redundancy_rate ∧
      (report (16, ⟨1, 0, GPU_PATCH_WRITE⟩)).redundancy_rate ≤ 1 :=
  ⟨written_state_reachable,
    by simp [flush_now, written_state, written_trace, Map.find],
    C17_emitted_record_rate written_state written_state_reachable 0
      (report (16, ⟨1, 0, GPU_PATCH_WRITE⟩))
      (by simp [flush_now, written_state, written_trace, Map.find])⟩

/-- C19: in every state reachable from the empty store by analysis_begin, unit_access,
analysis_end and flush_now, every PCStat entry of every retained trace has
total_accesses >= 1, so the divisor of the rate computed by flush_now is never 0. -/
theorem C19_total_accesses_positive (s : RedundantWrite) (hs : Reachable s) :
    ∀ c traces, (c, traces) ∈ s._kernel_trace → ∀ k t, (k, t) ∈ traces →
      ∀ pc st, (pc, st) ∈ t.pc_stats →
        1 ≤ st.total_accesses ∧ (st.total_accesses : ℚ) ≠ 0 := by
  intro c traces hc k t hkt pc st hst
  have hpos : 1 ≤ st.total_accesses := (reachable_stats s hs c traces hc k t hkt).2 pc st hst
  refine ⟨hpos, ?_⟩
  have : (0 : ℚ) < (st.total_accesses : ℚ) := by exact_mod_cast hpos
  exact ne_of_gt this

/-- Witness of C19: the state after analysis_begin and one WRITE. -/
theorem C19_total_accesses_positive_witness :
    Reachable written_state ∧
    ∀ c traces, (c, traces) ∈ written_state._kernel_trace → ∀ k t, (k, t) ∈ traces →
      ∀ pc st, (pc, st) ∈ t.pc_stats →
        1 ≤ st.total_accesses ∧ (st.total_accesses : ℚ) ≠ 0 :=
  ⟨written_state_reachable, C19_total_accesses_positive written_state written_state_reachable⟩

theorem analysis_begin_bound (s : RedundantWrite) (c : Nat) (k : Int) (cubin_id mod_id : Nat) :
    ∃ s' t, analysis_begin s c k cubin_id mod_id GPU_PATCH_TYPE_REDUNDANT_WRITE = some s' ∧
      s'._trace = some (c, k) ∧ trace_at s' c k = some t := by
  cases ht : trace_at s c k with
  | some t =>
    exact ⟨_, t, analysis_begin_existing s c k cubin_id mod_id t ht, rfl, ht⟩
  | none =>
    obtain ⟨s0, hs0, htr, _, hat⟩ := analysis_begin_new s c k cubin_id mod_id ht
    exact ⟨s0, _, hs0, htr, hat⟩

theorem deliver_other (s : RedundantWrite) (c : Nat) (k : Int) (t : RedundantWriteTrace)
    (hk : s._trace = some (c, k)) (ht : trace_at s c k = some t) (e : AccessEvent) :
    ∃ s', deliver s e = some s' ∧ s'._trace = some (c, k) ∧
      trace_at s' c k = some (access_trace t e.thread_id e.memory e.pc e.addr e.flags) ∧
      ∀ c' k', (c', k') ≠ (c, k) → trace_at s' c' k' = trace_at s c' k' := by
  have hcur : current s = some t := by simp [current, hk, ht]
  obtain ⟨c0, k0, traces, hk0, hc, hf⟩ := current_unfold s t hcur
  rw [hk] at hk0
  cases hk0
  refine ⟨_, unit_access_bound s c k traces t hk hc hf e, hk, ?_, ?_⟩
  · simp [trace_at, Map.find_assign_self]
  · intro c' k' hne
    by_cases hcc : c' = c
    · subst hcc
      have hkk : k' ≠ k := fun h => hne (by rw [h])
      simp only [trace_at, Map.find_assign_self, Option.some_bind, hc]
      exact Map.find_assign_ne _ _ _ _ hkk
    · simp only [trace_at]
      rw [Map.find_assign_ne _ _ _ _ hcc]

theorem access_trace_ne (t : RedundantWriteTrace) (thread_id : ThreadId)
    (memory : Memory) (pc addr : Nat) (flags : GPUPatchFlags) :
    access_trace t thread_id memory pc addr flags ≠ t := by
  intro h
  have h1 := total_of_access_trace_self t thread_id memory pc addr flags
  rw [h] at h1
  omega

/-- C18: the handle is global and unit_access ignores its kernel id.  For distinct keys
(A, k1) and (B, k2), after analysis_begin(A, k1) and then analysis_begin(B, k2) with no
analysis_end in between, a unit_access called with kernel id k1 (any event, its kernel
id set to k1) is applied to the trace of (B, k2), which changes, and the trace of
(A, k1) stays exactly as it was. -/
theorem C18_access_goes_to_last_begun_trace (s : RedundantWrite) (A B : Nat) (k1 k2 : Int)
    (cubin1 mod1 cubin2 mod2 : Nat) (hne : (A, k1) ≠ (B, k2)) (e : AccessEvent) :
    ∃ s1 s2 s3 tA tB,
      analysis_begin s A k1 cubin1 mod1 GPU_PATCH_TYPE_REDUNDANT_WRITE = some s1 ∧
      analysis_begin s1 B k2 cubin2 mod2 GPU_PATCH_TYPE_REDUNDANT_WRITE = some s2 ∧
      trace_at s2 A k1 = some tA ∧ trace_at s2 B k2 = some tB ∧
      deliver s2 { e with kernel_id := k1 } = some s3 ∧
      trace_at s3 B k2 = some (access_trace tB e.thread_id e.memory e.pc e.addr e.flags) ∧
      trace_at s3 B k2 ≠ trace_at s2 B k2 ∧
      trace_at s3 A k1 = some tA := by
  obtain ⟨s1, tA, hs1, _, hA1⟩ := analysis_begin_bound s A k1 cubin1 mod1
  obtain ⟨s2, tB, hs2, htr2, hB2⟩ := analysis_begin_bound s1 B k2 cubin2 mod2
  have hA2 : trace_at s2 A k1 = some tA := by
    rw [analysis_begin_other s1 s2 B k2 cubin2 mod2 _ hs2 A k1 hne, hA1]
  obtain ⟨s3, hs3, _, hB3, hoth⟩ :=
    deliver_other s2 B k2 tB htr2 hB2 { e with kernel_id := k1 }
  refine ⟨s1, s2, s3, tA, tB, hs1, hs2, hA2, hB2, hs3, hB3, ?_, ?_⟩
  · rw [hB3, hB2]
    intro h
    exact access_trace_ne _ _ _ _ _ _ (Option.some.inj h)
  · rw [hoth A k1 hne, hA2]

/-- Witness of C18: contexts 0 and 1 begin kernels 7 and 3 on a new analysis object; the
access carries kernel id 7. -/
theorem C18_access_goes_to_last_begun_trace_witness :
    ((0 : Nat), (7 : Int)) ≠ (1, 3) ∧
    ∃ s1 s2 s3 tA tB,
      analysis_begin init 0 7 1 1 GPU_PATCH_TYPE_REDUNDANT_WRITE = some s1 ∧
      analysis_begin s1 1 3 1 1 GPU_PATCH_TYPE_REDUNDANT_WRITE = some s2 ∧
      trace_at s2 0 7 = some tA ∧ trace_at s2 1 3 = some tB ∧
      deliver s2 { touch thread_a 16 GPU_PATCH_WRITE with kernel_id := 7 } = some s3 ∧
      trace_at s3 1 3 = some (access_trace tB (touch thread_a 16 GPU_PATCH_WRITE).thread_id
        (touch thread_a 16 GPU_PATCH_WRITE).memory (touch thread_a 16 GPU_PATCH_WRITE).pc
        (touch thread_a 16 GPU_PATCH_WRITE).addr (touch thread_a 16 GPU_PATCH_WRITE).flags) ∧
      trace_at s3 1 3 ≠ trace_at s2 1 3 ∧
      trace_at s3 0 7 = some tA :=
  ⟨by decide,
    C18_access_goes_to_last_begun_trace init 0 1 7 3 1 1 1 1 (by decide)
      (touch thread_a 16 GPU_PATCH_WRITE)⟩

theorem history_size_access_trace (t : RedundantWriteTrace) (thread_id : ThreadId)
    (memory : Memory) (pc addr : Nat) (flags : GPUPatchFlags) :
    history_size (access_trace t thread_id memory pc addr flags) =
      history_size t + (if (record_of t memory addr).isSome then 0 else 1) := by
  have h : (access_trace t thread_id memory pc addr flags).access_history =
      Map.assign memory
        (Map.emplace addr ⟨thread_id, pc, flags⟩ (Map.subscript t.access_history memory []))
        t.access_history := by
    unfold access_trace
    simp only
    cases Map.find (Map.subscript t.access_history memory []) addr with
    | none => rfl
    | some r => rfl
  have hs := sum_assign (fun entry : Memory × Map Nat AccessRecord => entry.2.length) memory
    (Map.emplace addr ⟨thread_id, pc, flags⟩ (Map.subscript t.access_history memory []))
    t.access_history
  have hl := length_emplace addr (⟨thread_id, pc, flags⟩ : AccessRecord)
    (Map.subscript t.access_history memory [])
  rw [find_history] at hl
  have hsub : ((Map.find t.access_history memory).map
      (fun v0 => (fun entry : Memory × Map Nat AccessRecord => entry.2.length) (memory, v0))).getD 0 =
      (Map.subscript t.access_history memory []).length := by
    unfold Map.subscript
    cases Map.find t.access_history memory <;> rfl
  unfold history_size
  rw [h]
  rw [hsub] at hs
  simp only at hs
  omega

theorem non_redundant_sum_access_trace (t : RedundantWriteTrace) (thread_id : ThreadId)
    (memory : Memory) (pc addr : Nat) (flags : GPUPatchFlags) (hb : stats_bounded t) :
    non_redundant_sum t ≤ non_redundant_sum (access_trace t thread_id memory pc addr flags) ∧
      (record_of t memory addr = none →
        non_redundant_sum (access_trace t thread_id memory pc addr flags) =
          non_redundant_sum t + 1) := by
  have hle : redundant_of t pc ≤ total_of t pc := by
    unfold redundant_of total_of
    cases hf : Map.find t.pc_stats pc with
    | none => simp
    | some st => simpa using hb pc st (Map.mem_of_find _ _ _ hf)
  have hold : ((Map.find t.pc_stats pc).map
      (fun v0 => (fun entry : Nat × PCStats =>
        entry.2.total_accesses - entry.2.redundant_accesses) (pc, v0))).getD 0 =
      total_of t pc - redundant_of t pc := by
    unfold total_of redundant_of
    cases Map.find t.pc_stats pc <;> rfl
  unfold non_redundant_sum
  rw [access_trace_pc_stats]
  cases hr : record_of t memory addr with
  | none =>
    have hs := sum_assign
      (fun entry : Nat × PCStats => entry.2.total_accesses - entry.2.redundant_accesses) pc
      { total_accesses := total_of t pc + 1, redundant_accesses := redundant_of t pc,
        access_type := (Map.subscript t.pc_stats pc ⟨0, 0, flags⟩).access_type } t.pc_stats
    rw [hold] at hs
    simp only at hs ⊢
    constructor
    · omega
    · intro _
      omega
  | some r =>
    have hs := sum_assign
      (fun entry : Nat × PCStats => entry.2.total_accesses - entry.2.redundant_accesses) pc
      (classify r thread_id flags
        { total_accesses := total_of t pc + 1, redundant_accesses := redundant_of t pc,
          access_type := (Map.subscript t.pc_stats pc ⟨0, 0, flags⟩).access_type }) t.pc_stats
    rw [hold] at hs
    simp only [classify_redundant, classify_total] at hs
    simp only
    constructor
    · split at hs <;> omega
    · intro h
      cases h

theorem history_le_access_trace (t : RedundantWriteTrace) (thread_id : ThreadId)
    (memory : Memory) (pc addr : Nat) (flags : GPUPatchFlags)
    (h : stats_bounded t ∧ history_size t ≤ non_redundant_sum t) :
    stats_bounded (access_trace t thread_id memory pc addr flags) ∧
      history_size (access_trace t thread_id memory pc addr flags) ≤
        non_redundant_sum (access_trace t thread_id memory pc addr flags) := by
  refine ⟨stats_bounded_access_trace t thread_id memory pc addr flags h.1, ?_⟩
  have hh := history_size_access_trace t thread_id memory pc addr flags
  have hn := non_redundant_sum_access_trace t thread_id memory pc addr flags h.1
  cases hr : record_of t memory addr with
  | none =>
    rw [hr] at hh
    have := hn.2 hr
    simp at hh
    omega
  | some r =>
    rw [hr] at hh
    simp at hh
    omega

theorem length_history_pairs (t : RedundantWriteTrace) :
    (history_pairs t).length = history_size t := by
  unfold history_pairs history_size
  rw [List.flatMap_def, List.length_flatten, List.map_map]
  congr 1
  apply List.map_congr_left
  intro entry _
  simp

theorem mem_history_pairs (t : RedundantWriteTrace) (memory : Memory) (addr : Nat)
    (h : (record_of t memory addr).isSome = true) : (memory, addr) ∈ history_pairs t := by
  unfold record_of at h
  cases hm : Map.find t.access_history memory with
  | none => simp [hm] at h
  | some history =>
    rw [hm] at h
    simp only [Option.some_bind] at h
    cases ha : Map.find history addr with
    | none => simp [ha] at h
    | some r =>
      unfold history_pairs
      rw [List.mem_flatMap]
      refine ⟨(memory, history), Map.mem_of_find _ _ _ hm, ?_⟩
      rw [List.mem_map]
      exact ⟨(addr, r), Map.mem_of_find _ _ _ ha, rfl⟩

theorem reachable_history (s : RedundantWrite) (hs : Reachable s) :
    every_trace (fun t => stats_bounded t ∧ history_size t ≤ non_redundant_sum t)
      s._kernel_trace :=
  reachable_every_trace (fun t => stats_bounded t ∧ history_size t ≤ non_redundant_sum t)
    (fun _ => ⟨fun _ _ hmem => (by cases hmem), Nat.le_refl _⟩)
    (fun t thread_id memory pc addr flags h =>
      history_le_access_trace t thread_id memory pc addr flags h)
    (fun _ h => h) s hs

/-- C20: first touches are never counted as redundant.  In every reachable state (flush_now
and analysis_end / analysis_begin cycles included) and for every retained trace, the
sum over all PCStat entries of total_accesses - redundant_accesses is at least the
number of entries of access_history, hence at least the length of any list of distinct
(region, address) pairs that have a stored AccessRecord. -/
theorem C20_first_touches_not_redundant (s : RedundantWrite) (hs : Reachable s) :
    ∀ c traces, (c, traces) ∈ s._kernel_trace → ∀ k t, (k, t) ∈ traces →
      history_size t ≤ non_redundant_sum t ∧
      ∀ pairs : List (Memory × Nat), pairs.Nodup →
        (∀ x, x ∈ pairs → (record_of t x.1 x.2).isSome = true) →
        pairs.length ≤ non_redundant_sum t := by
  intro c traces hc k t hkt
  have hinv := (reachable_history s hs c traces hc k t hkt).2
  refine ⟨hinv, ?_⟩
  intro pairs hnd hrec
  have hsub : pairs ⊆ history_pairs t := by
    intro x hx
    have := mem_history_pairs t x.1 x.2 (hrec x hx)
    simpa using this
  have hlen := (List.subperm_of_subset hnd hsub).length_le
  rw [length_history_pairs] at hlen
  omega

/-- Witness of C20: the state after analysis_begin and one WRITE. -/
theorem C20_first_touches_not_redundant_witness :
    Reachable written_state ∧
    ∀ c traces, (c, traces) ∈ written_state._kernel_trace → ∀ k t, (k, t) ∈ traces →
      history_size t ≤ non_redundant_sum t ∧
      ∀ pairs : List (Memory × Nat), pairs.Nodup →
        (∀ x, x ∈ pairs → (record_of t x.1 x.2).isSome = true) →
        pairs.length ≤ non_redundant_sum t :=
  ⟨written_state_reachable,
    C20_first_touches_not_redundant written_state written_state_reachable⟩

end RedundantWrite

end redshow
